import Mathlib

/-
Verification of the embedded-cli terminal engine (src/lib/src/embedded_cli.c).

The development is a shallow embedding: every definition below is translated
from the C source.  C byte buffers are modelled as `List Char`, machine
integers as `Nat` (with explicit remarks where unsigned wrap-around matters),
NUL-terminated C strings as the longest NUL-free prefix of a buffer, and
out-parameters / mutation as explicit state passing.
-/

set_option maxHeartbeats 1000000
set_option maxRecDepth 10000

namespace EmbeddedCli

/-! ### Ring buffer (FifoBuf)

Model of `struct FifoBuf`: a byte array `buf` of length `size`, with the
`front` and `back` indices.  `buf` always has length `size`; reads are
modelled with `List.getD` (the C code only reads in-bounds indices in the
states we consider). -/

structure FifoBuf where
  buf : List Char
  front : Nat
  back : Nat
  size : Nat
deriving DecidableEq, Repr

/-- `fifoBufAvailable`: number of elements currently in the buffer. -/
def fifoBufAvailable (b : FifoBuf) : Nat :=
  if b.front ≤ b.back then b.back - b.front else b.size - b.front + b.back

/-- `fifoBufPush`: append a char at `back`; fails (returns `false`, drops the
char) when the advanced back index would meet `front` (one slot is wasted to
distinguish full from empty). -/
def fifoBufPush (b : FifoBuf) (a : Char) : FifoBuf × Bool :=
  let newBack := (b.back + 1) % b.size
  if newBack ≠ b.front then
    ({ b with buf := b.buf.set b.back a, back := newBack }, true)
  else
    (b, false)

/-- `fifoBufPop`: return the char at `front` and advance `front`; on an empty
buffer returns the 0 sentinel and leaves the buffer unchanged. -/
def fifoBufPop (b : FifoBuf) : Char × FifoBuf :=
  if b.front ≠ b.back then
    (b.buf.getD b.front '\x00', { b with front := (b.front + 1) % b.size })
  else
    ('\x00', b)

/-- The rx-side state of the engine: the FIFO plus the `CLI_FLAG_OVERFLOW`
flag bit of the flag word. -/
structure RxState where
  fifo : FifoBuf
  overflow : Bool
deriving DecidableEq, Repr

/-- `embeddedCliReceiveChar`: push one byte; on failure set the overflow
flag. -/
def embeddedCliReceiveChar (st : RxState) (c : Char) : RxState :=
  let p := fifoBufPush st.fifo c
  { fifo := p.1, overflow := if p.2 then st.overflow else true }

/-- Deliver a byte sequence one byte at a time via `embeddedCliReceiveChar`. -/
def receiveAll (st : RxState) (xs : List Char) : RxState :=
  xs.foldl embeddedCliReceiveChar st

/-- Pop `n` chars in sequence (`n` is the loop fuel). -/
def drainN : FifoBuf → Nat → List Char
  | _, 0 => []
  | f, Nat.succ k =>
    let p := fifoBufPop f
    p.1 :: drainN p.2 k

/-- The sequence of bytes the `while (fifoBufAvailable(...))` loop of
`embeddedCliProcess` pops and hands to the per-byte classifier.  Each
successful pop decreases `fifoBufAvailable` by one
(`fifoBufPop_available` below), so running the loop body exactly
`fifoBufAvailable` times is the C loop. -/
def fifoDrain (f : FifoBuf) : List Char := drainN f (fifoBufAvailable f)

/-- On a well-formed buffer, a pop from a non-empty FIFO decreases the
available count by exactly one, so the `process` loop terminates after
`fifoBufAvailable` iterations. -/
theorem fifoBufPop_available (b : FifoBuf) (hf : b.front < b.size)
    (hb : b.back < b.size) (hne : 0 < fifoBufAvailable b) :
    fifoBufAvailable (fifoBufPop b).2 = fifoBufAvailable b - 1 := by
  have hfb : b.front ≠ b.back := by
    intro h
    unfold fifoBufAvailable at hne
    simp [h] at hne
  have hpop : (fifoBufPop b).2 = { b with front := (b.front + 1) % b.size } := by
    unfold fifoBufPop
    rw [if_pos hfb]
  rw [hpop]
  simp only [fifoBufAvailable] at hne ⊢
  by_cases h1 : b.front + 1 < b.size
  · rw [Nat.mod_eq_of_lt h1]
    split_ifs <;> omega
  · have h2 : b.front + 1 = b.size := by omega
    rw [h2, Nat.mod_self]
    split_ifs <;> omega

/-- Pushing a list of bytes into a FIFO whose content occupies the buffer
positions before `back = |pre|` (with `front = 0`), with enough free space,
writes the bytes contiguously after `pre` and never fails (nor sets the
overflow flag). -/
theorem receiveAll_spec : ∀ (xs pre tail : List Char) (N : Nat) (ov : Bool),
    (pre ++ tail).length = N → pre.length + xs.length < N →
    receiveAll ⟨⟨pre ++ tail, 0, pre.length, N⟩, ov⟩ xs =
      ⟨⟨pre ++ xs ++ tail.drop xs.length, 0, pre.length + xs.length, N⟩, ov⟩ := by
  intro xs
  induction xs with
  | nil =>
    intro pre tail N ov _ _
    simp [receiveAll]
  | cons x rest ih =>
    intro pre tail N ov hb hlen
    simp only [List.length_cons] at hlen
    have hkN : pre.length + 1 < N := by omega
    rcases tail with _ | ⟨t, ts⟩
    · exfalso
      simp at hb
      omega
    have hset : (pre ++ t :: ts).set pre.length x = pre ++ x :: ts := by
      rw [List.set_append_right _ _ (Nat.le_refl _)]
      simp
    have hpush : fifoBufPush ⟨pre ++ t :: ts, 0, pre.length, N⟩ x =
        (⟨pre ++ x :: ts, 0, pre.length + 1, N⟩, true) := by
      unfold fifoBufPush
      have hmod : (pre.length + 1) % N = pre.length + 1 := Nat.mod_eq_of_lt hkN
      simp [hmod, hset]
    have hstep : embeddedCliReceiveChar ⟨⟨pre ++ t :: ts, 0, pre.length, N⟩, ov⟩ x =
        ⟨⟨(pre ++ [x]) ++ ts, 0, (pre ++ [x]).length, N⟩, ov⟩ := by
      simp [embeddedCliReceiveChar, hpush]
    have hrec : receiveAll ⟨⟨pre ++ t :: ts, 0, pre.length, N⟩, ov⟩ (x :: rest) =
        receiveAll ⟨⟨(pre ++ [x]) ++ ts, 0, (pre ++ [x]).length, N⟩, ov⟩ rest := by
      simp only [receiveAll, List.foldl_cons, hstep]
    rw [hrec, ih (pre ++ [x]) ts N ov
      (by simpa using by simp at hb; omega)
      (by simp; omega)]
    have hback : (pre ++ [x]).length + rest.length = pre.length + (rest.length + 1) := by
      simp only [List.length_append, List.length_cons, List.length_nil]
      omega
    rw [hback]
    have hbuf : (pre ++ [x]) ++ rest ++ ts.drop rest.length =
        pre ++ (x :: rest) ++ (t :: ts).drop (x :: rest).length := by
      simp
    rw [hbuf]
    simp

/-- Unfolding equation for `drainN` at a successor fuel value. -/
theorem drainN_succ (f : FifoBuf) (k : Nat) :
    drainN f (k + 1) = (fifoBufPop f).1 :: drainN (fifoBufPop f).2 k := rfl

/-- Draining `|mid|` elements from a non-wrapped FIFO whose content is `mid`
(front at `|pre|`, back at `|pre| + |mid|`, both below `size`) yields exactly
`mid`. -/
theorem drainN_spec : ∀ (mid pre tail : List Char) (N : Nat),
    (pre ++ mid ++ tail).length = N → pre.length + mid.length < N →
    drainN ⟨pre ++ mid ++ tail, pre.length, pre.length + mid.length, N⟩
      mid.length = mid := by
  intro mid
  induction mid with
  | nil => intro pre tail N _ _; simp [drainN]
  | cons m ms ih =>
    intro pre tail N hb hlen
    simp only [List.length_cons] at hlen
    have hfN : pre.length + 1 < N := by omega
    have hget : (pre ++ (m :: ms ++ tail)).getD pre.length '\x00' = m := by
      have hidx : pre.length < (pre ++ (m :: ms ++ tail)).length := by
        simp
      rw [List.getD_eq_getElem _ _ hidx, List.getElem_append_right (Nat.le_refl _)]
      simp
    have hpop : fifoBufPop
        ⟨pre ++ m :: ms ++ tail, pre.length, pre.length + (ms.length + 1), N⟩ =
        (m, ⟨pre ++ m :: ms ++ tail, pre.length + 1,
          pre.length + (ms.length + 1), N⟩) := by
      unfold fifoBufPop
      have hne : pre.length ≠ pre.length + (ms.length + 1) := by omega
      have hmod : (pre.length + 1) % N = pre.length + 1 := Nat.mod_eq_of_lt hfN
      simp only [hne, ne_eq, not_false_eq_true, if_pos, hmod]
      rw [show pre ++ m :: ms ++ tail = pre ++ (m :: ms ++ tail) by simp]
      rw [hget]
    simp only [List.length_cons]
    rw [drainN_succ, hpop]
    congr 1
    have hih := ih (pre ++ [m]) tail N (by simp at hb ⊢; omega) (by simp; omega)
    simp only [List.append_assoc, List.singleton_append, List.cons_append,
      List.length_append, List.length_cons, List.length_nil] at hih ⊢
    have hnum : pre.length + (ms.length + 1) = pre.length + 1 + ms.length := by
      omega
    rw [hnum]
    convert hih using 3

/-- C1 (amended): for every byte sequence of length at most
`rx-buffer-size - 1` delivered one byte at a time via `embeddedCliReceiveChar`
into an initially empty FIFO, the `process` drain loop consumes exactly the
delivered bytes, in order, with no byte dropped and the overflow flag not
set.  (At length exactly `rx-buffer-size` the final push fails because one
slot is wasted to distinguish full from empty; see the counterexample.) -/
theorem claim_C1_fifo_delivery (xs : List Char) (N : Nat) (b0 : List Char)
    (hb : b0.length = N) (hlen : xs.length < N) :
    (receiveAll ⟨⟨b0, 0, 0, N⟩, false⟩ xs).overflow = false ∧
    fifoDrain (receiveAll ⟨⟨b0, 0, 0, N⟩, false⟩ xs).fifo = xs := by
  have hrecv := receiveAll_spec xs [] b0 N false (by simpa using hb)
    (by simpa using hlen)
  simp only [List.nil_append, List.length_nil, Nat.zero_add] at hrecv
  rw [hrecv]
  refine ⟨rfl, ?_⟩
  have hav : fifoBufAvailable ⟨xs ++ b0.drop xs.length, 0, xs.length, N⟩ =
      xs.length := by
    simp [fifoBufAvailable]
  unfold fifoDrain
  rw [hav]
  have hdrain := drainN_spec xs [] (b0.drop xs.length) N
    (by simp; omega) (by simpa using hlen)
  simpa using hdrain

/-- C1 counterexample: with the default `rx-buffer-size` of 64, delivering a
sequence of length exactly 64 (the claim allows length up to
`rx-buffer-size`) sets the overflow flag, and only 63 of the 64 bytes reach
the drain loop. -/
theorem claim_C1_counterexample :
    (receiveAll ⟨⟨List.replicate 64 '\x00', 0, 0, 64⟩, false⟩
      (List.replicate 64 'a')).overflow = true ∧
    (fifoDrain (receiveAll ⟨⟨List.replicate 64 '\x00', 0, 0, 64⟩, false⟩
      (List.replicate 64 'a')).fifo).length = 63 := by
  decide

/-- C1 witness: the amended theorem applied at a concrete input. -/
theorem claim_C1_fifo_delivery_witness :
    (receiveAll ⟨⟨List.replicate 4 '\x00', 0, 0, 4⟩, false⟩
      ['a', 'b', 'c']).overflow = false ∧
    fifoDrain (receiveAll ⟨⟨List.replicate 4 '\x00', 0, 0, 4⟩, false⟩
      ['a', 'b', 'c']).fifo = ['a', 'b', 'c'] :=
  claim_C1_fifo_delivery ['a', 'b', 'c'] 4 (List.replicate 4 '\x00')
    (by decide) (by decide)

/-! ### Tokenizer (embeddedCliTokenizeArgs) and token accessors -/

/-- State of the in-place tokenizer scan: the `quotesEnabled` and
`escapeActivated` flags plus the bytes written so far (`out.length` is the C
`insertPos`; the writes are sequential, so `out` is exactly the buffer
content at indices `0 … insertPos-1`). -/
structure TokState where
  quotesEnabled : Bool
  escapeActivated : Bool
  out : List Char
deriving DecidableEq, Repr

/-- Write a NUL separator subject to the collapse rule: `insertPos > 0 &&
args[insertPos - 1] != '\0'`. -/
def tokEmitNull (out : List Char) : List Char :=
  if out.length > 0 ∧ out.getLast? ≠ some '\x00' then out ++ ['\x00'] else out

/-- The tokenizer loop body for one char read from the scan region (the loop
stops at the first NUL, so `c ≠ '\x00'` at every call site). -/
def tokStep (st : TokState) (c : Char) : TokState :=
  if st.escapeActivated then
    { st with escapeActivated := false, out := st.out ++ [c] }
  else if c = '\\' then
    { st with escapeActivated := true }
  else if c = '"' then
    { st with quotesEnabled := !st.quotesEnabled, out := tokEmitNull st.out }
  else if st.quotesEnabled = false ∧ c = ' ' then
    { st with out := tokEmitNull st.out }
  else
    { st with out := st.out ++ [c] }

/-- `embeddedCliTokenizeArgs`: in-place tokenization.  The C function reads
the NUL-terminated string at the start of the buffer (its `while` loop stops
at the first NUL), writes the collapsed token bytes sequentially at indices
`0 … insertPos-1` (the write index never passes the read index), then writes
the double-NUL terminator at `insertPos` and `insertPos + 1`.  All bytes past
`insertPos + 1` are untouched. -/
def tokOut (buffer : List Char) : List Char :=
  ((buffer.takeWhile (· ≠ '\x00')).foldl tokStep ⟨false, false, []⟩).out

def embeddedCliTokenizeArgs (buffer : List Char) : List Char :=
  tokOut buffer ++ ['\x00', '\x00'] ++ buffer.drop ((tokOut buffer).length + 2)

/-- `getTokenPosition`'s scanning loop.  `i` is the current index, `tc` the
current token count, `pos` the requested (1-based) token.  `CLI_TOKEN_NPOS`
is modelled as `none`; running off the buffer (undefined behaviour in C, it
never happens on double-NUL-terminated input) is also modelled as `none`. -/
def getTokenPositionAux : List Char → Nat → Nat → Nat → Option Nat
  | [], _, _, _ => none
  | c :: rest, i, tc, pos =>
    if tc = pos then (if c ≠ '\x00' then some i else none)
    else if c = '\x00' then
      match rest with
      | [] => none
      | d :: _ =>
        if d = '\x00' then none
        else getTokenPositionAux rest (i + 1) (tc + 1) pos
    else getTokenPositionAux rest (i + 1) tc pos

/-- `getTokenPosition`: index of the first char of the `pos`-th (1-based)
token, or `none` (= `CLI_TOKEN_NPOS`) when `pos = 0` or there is no such
token. -/
def getTokenPosition (tokenizedStr : List Char) (pos : Nat) : Option Nat :=
  if pos = 0 then none else getTokenPositionAux tokenizedStr 0 1 pos

/-- `embeddedCliGetToken` returns a pointer into the buffer; the pointer is
modelled as the buffer suffix it points at (`none` models `NULL`). -/
def embeddedCliGetToken (tokenizedStr : List Char) (pos : Nat) :
    Option (List Char) :=
  (getTokenPosition tokenizedStr pos).map (fun i => tokenizedStr.drop i)

/-- The NUL-terminated C string that a returned `char *` denotes. -/
def asCString (s : List Char) : List Char := s.takeWhile (· ≠ '\x00')

/-- The `pos`-th token read back as a C string (what a caller comparing the
token with `strcmp` sees). -/
def tokenAt (tokenizedStr : List Char) (pos : Nat) : Option (List Char) :=
  (embeddedCliGetToken tokenizedStr pos).map asCString

/-- The walking loop of `embeddedCliGetTokenCount`.  The C loop looks one
byte ahead (`tokenizedStr[i + 1]`), so the model recurses on two-element
views; on a double-NUL-terminated string the loop always breaks inside the
buffer. -/
def tokenCountAux : List Char → Nat → Nat
  | [], cnt => cnt
  | [_], cnt => cnt
  | c :: d :: rest, cnt =>
    if c = '\x00' then
      (if d = '\x00' then cnt else tokenCountAux (d :: rest) (cnt + 1))
    else tokenCountAux (d :: rest) cnt

/-- `embeddedCliGetTokenCount`: 0 for an empty string, otherwise one more
than the number of interior NUL separators before the double-NUL. -/
def embeddedCliGetTokenCount (tokenizedStr : List Char) : Nat :=
  match tokenizedStr with
  | [] => 0
  | c :: _ => if c = '\x00' then 0 else tokenCountAux tokenizedStr 1

/-- C3 counterexample: re-running `embeddedCliTokenizeArgs` on the
already-tokenized buffer `"a\0b\0c\0\0\0"` is NOT a no-op — the scan stops at
the first NUL (after `"a"`), so the second run overwrites the byte `'b'` with
the double-NUL terminator, changing the buffer. -/
theorem claim_C3_counterexample :
    embeddedCliTokenizeArgs (embeddedCliTokenizeArgs
      ['a', ' ', 'b', ' ', 'c', '\x00', '\x00', '\x00']) ≠
    embeddedCliTokenizeArgs
      ['a', ' ', 'b', ' ', 'c', '\x00', '\x00', '\x00'] := by
  decide

/-- C3 (amended): tokenizing the buffer `"a b c"` (with the required two
bytes of slack) produces the double-NUL-terminated token list
`["a","b","c"]`; but re-running `embeddedCliTokenizeArgs` on that
already-tokenized buffer is not a no-op: the scan stops at the first NUL, so
the buffer is truncated to the single token `["a"]` (byte `'b'` at index 2 is
overwritten by the terminator). -/
theorem claim_C3_tokenize_roundtrip :
    embeddedCliTokenizeArgs ['a', ' ', 'b', ' ', 'c', '\x00', '\x00', '\x00'] =
      ['a', '\x00', 'b', '\x00', 'c', '\x00', '\x00', '\x00'] ∧
    embeddedCliGetTokenCount
      ['a', '\x00', 'b', '\x00', 'c', '\x00', '\x00', '\x00'] = 3 ∧
    tokenAt ['a', '\x00', 'b', '\x00', 'c', '\x00', '\x00', '\x00'] 1 =
      some ['a'] ∧
    tokenAt ['a', '\x00', 'b', '\x00', 'c', '\x00', '\x00', '\x00'] 2 =
      some ['b'] ∧
    tokenAt ['a', '\x00', 'b', '\x00', 'c', '\x00', '\x00', '\x00'] 3 =
      some ['c'] ∧
    embeddedCliTokenizeArgs
      ['a', '\x00', 'b', '\x00', 'c', '\x00', '\x00', '\x00'] =
      ['a', '\x00', '\x00', '\x00', 'c', '\x00', '\x00', '\x00'] ∧
    embeddedCliGetTokenCount
      ['a', '\x00', '\x00', '\x00', 'c', '\x00', '\x00', '\x00'] = 1 := by
  decide

/-- Each tokenizer step writes at most one byte. -/
theorem tokStep_out_length (st : TokState) (c : Char) :
    (tokStep st c).out.length ≤ st.out.length + 1 := by
  unfold tokStep tokEmitNull
  split_ifs <;> simp

/-- Over any char list, the tokenizer writes at most one byte per char read:
the write index never passes the read index. -/
theorem tokFold_out_length : ∀ (l : List Char) (st : TokState),
    ((l.foldl tokStep st).out.length ≤ st.out.length + l.length) := by
  intro l
  induction l with
  | nil => intro st; simp
  | cons c cs ih =>
    intro st
    have h1 := tokStep_out_length st c
    have h2 := ih (tokStep st c)
    simp only [List.foldl_cons, List.length_cons]
    omega

/-- The length of a `takeWhile` never exceeds the list's length. -/
theorem takeWhile_length_le (p : Char → Bool) (l : List Char) :
    (l.takeWhile p).length ≤ l.length := by
  induction l with
  | nil => simp
  | cons c cs ih =>
    simp only [List.takeWhile_cons]
    split
    · simp only [List.length_cons]
      omega
    · simp

/-- Bytes past the double-NUL terminator position are unchanged. -/
theorem getD_pad_tail (out buf : List Char) (j : Nat)
    (h : out.length + 2 ≤ j) :
    (out ++ ['\x00', '\x00'] ++ buf.drop (out.length + 2)).getD j '\x00' =
      buf.getD j '\x00' := by
  rw [List.getD_eq_getElem?_getD, List.getD_eq_getElem?_getD]
  rw [List.getElem?_append_right (by simp; omega)]
  rw [List.getElem?_drop]
  have hidx : out.length + 2 + (j - (out ++ ['\x00', '\x00']).length) = j := by
    simp
    omega
  rw [hidx]

/-- C10: for a NUL-terminated input string of length `L` at the start of the
buffer, `embeddedCliTokenizeArgs` writes only at indices `0 … L+1`: the write
position never exceeds the read position, the two terminating NULs land at
indices ≤ `L` and `L+1`, every byte past index `L+1` is unchanged, and with
the guaranteed two bytes of slack the buffer length is preserved. -/
theorem claim_C10_tokenizer_bounds (buffer : List Char) :
    (∀ k, (((buffer.takeWhile (· ≠ '\x00')).take k).foldl tokStep
      ⟨false, false, []⟩).out.length ≤ k) ∧
    (tokOut buffer).length ≤ (buffer.takeWhile (· ≠ '\x00')).length ∧
    (∀ j, (buffer.takeWhile (· ≠ '\x00')).length + 2 ≤ j →
      (embeddedCliTokenizeArgs buffer).getD j '\x00' = buffer.getD j '\x00') ∧
    ((buffer.takeWhile (· ≠ '\x00')).length + 2 ≤ buffer.length →
      (embeddedCliTokenizeArgs buffer).length = buffer.length) := by
  have hlen : ∀ k, (((buffer.takeWhile (· ≠ '\x00')).take k).foldl tokStep
      ⟨false, false, []⟩).out.length ≤ k := by
    intro k
    have h1 := tokFold_out_length ((buffer.takeWhile (· ≠ '\x00')).take k)
      ⟨false, false, []⟩
    simp only [List.length_nil] at h1
    have h2 : ((buffer.takeWhile (· ≠ '\x00')).take k).length ≤ k := by
      simp [List.length_take]
    omega
  have houtL : (tokOut buffer).length ≤
      (buffer.takeWhile (· ≠ '\x00')).length := by
    have h1 := tokFold_out_length (buffer.takeWhile (· ≠ '\x00'))
      ⟨false, false, []⟩
    simpa [tokOut] using h1
  have hLbuf : (buffer.takeWhile (· ≠ '\x00')).length ≤ buffer.length :=
    takeWhile_length_le _ _
  refine ⟨hlen, houtL, ?_, ?_⟩
  · intro j hj
    exact getD_pad_tail (tokOut buffer) buffer j (by omega)
  · intro hslack
    show (tokOut buffer ++ ['\x00', '\x00'] ++
      buffer.drop ((tokOut buffer).length + 2)).length = buffer.length
    simp only [List.length_append, List.length_cons, List.length_nil,
      List.length_drop]
    omega

/-- C10 witness: the bounds theorem applied at a concrete buffer
(`"a b"` NUL-terminated with two extra bytes): the byte at index 5, beyond
`L + 1 = 4`, is untouched. -/
theorem claim_C10_tokenizer_bounds_witness :
    (embeddedCliTokenizeArgs ['a', ' ', 'b', '\x00', 'q', 'r']).getD 5 '\x00' =
      ['a', ' ', 'b', '\x00', 'q', 'r'].getD 5 '\x00' :=
  (claim_C10_tokenizer_bounds ['a', ' ', 'b', '\x00', 'q', 'r']).2.2.1 5
    (by decide)

/-! ### Autocompletion engine (getAutocompletedCommand) -/

/-- `struct AutocompletedCommand`: first matching binding name (`NULL` is
`none`), number of safely completable chars, and candidate count. -/
structure AutocompletedCommand where
  firstCandidate : Option (List Char)
  autocompletedLen : Nat
  candidateCount : Nat
deriving DecidableEq, Repr

/-- The byte-for-byte comparison loop `for j < prefixLen` of the binding
scan. -/
def prefixMatches : List Char → List Char → Bool
  | [], _ => true
  | _ :: _, [] => false
  | p :: ps, n :: ns => p = n && prefixMatches ps ns

/-- A binding name is a candidate when it is at least as long as the prefix
(`len < prefixLen → continue`) and agrees with it on the first `prefixLen`
bytes.  This is also the meaning of the per-binding
`BINDING_FLAG_AUTOCOMPLETE` flag after `getAutocompletedCommand` returns. -/
def isCandidate (pfx name : List Char) : Bool :=
  decide (pfx.length ≤ name.length) && prefixMatches pfx name

/-- The candidate sublist of the binding table for a prefix, in insertion
order (the set marked by `BINDING_FLAG_AUTOCOMPLETE`). -/
def candidates (bindings : List (List Char)) (pfx : List Char) :
    List (List Char) :=
  bindings.filter (fun n => isCandidate pfx n)

/-- The inner longest-common-prefix loop `for (j = cmdSize; j < al; ++j)`:
returns the first index in `[j, j + fuel)` where `a` and `b` differ, if
any. -/
def mismatchAux (a b : List Char) : Nat → Nat → Option Nat
  | _, 0 => none
  | j, k + 1 =>
    if a.getD j '\x00' ≠ b.getD j '\x00' then some j
    else mismatchAux a b (j + 1) k

/-- The value of `autocompletedLen` after the LCP loop: the first mismatch
index in `[start, stop)`, or `stop` when the loop finds none (it then leaves
`autocompletedLen` unchanged). -/
def lcpBound (a b : List Char) (start stop : Nat) : Nat :=
  (mismatchAux a b start (stop - start)).getD stop

/-- One iteration of the binding loop of `getAutocompletedCommand` (the
`cmdSize` argument is the `impl->cmdSize` read by the LCP loop). -/
def acStep (cmdSize : Nat) (pfx : List Char) (cmd : AutocompletedCommand)
    (name : List Char) : AutocompletedCommand :=
  if isCandidate pfx name = false then cmd
  else
    let len := name.length
    let al1 := if cmd.candidateCount = 0 ∨ len < cmd.autocompletedLen then len
      else cmd.autocompletedLen
    let cnt := cmd.candidateCount + 1
    if cnt = 1 then ⟨some name, al1, 1⟩
    else ⟨cmd.firstCandidate,
      lcpBound (cmd.firstCandidate.getD []) name cmdSize al1, cnt⟩

/-- `getAutocompletedCommand`: fold the binding loop over the binding table;
empty table or empty prefix short-circuit to the empty result. -/
def getAutocompletedCommand (bindings : List (List Char)) (pfx : List Char)
    (cmdSize : Nat) : AutocompletedCommand :=
  if bindings.length = 0 ∨ pfx.length = 0 then ⟨none, 0, 0⟩
  else bindings.foldl (acStep cmdSize pfx) ⟨none, 0, 0⟩

/-- Two lists agree on all bytes below `m` (reads modelled with `getD`). -/
def agreeUpTo (a b : List Char) (m : Nat) : Prop :=
  ∀ j, j < m → a.getD j '\x00' = b.getD j '\x00'

/-- Invariant of the binding loop relating the accumulator to the list `cs`
of candidates seen so far. -/
def ACInv (pfx : List Char) (cs : List (List Char))
    (cmd : AutocompletedCommand) : Prop :=
  match cs with
  | [] => cmd = ⟨none, 0, 0⟩
  | c0 :: _ =>
    cmd.firstCandidate = some c0 ∧
    cmd.candidateCount = cs.length ∧
    pfx.length ≤ cmd.autocompletedLen ∧
    (∀ c ∈ cs, isCandidate pfx c = true) ∧
    (∀ c ∈ cs, cmd.autocompletedLen ≤ c.length ∧
      agreeUpTo c0 c cmd.autocompletedLen) ∧
    ((∃ c ∈ cs, cmd.autocompletedLen = c.length) ∨
      (∃ c ∈ cs, c0.getD cmd.autocompletedLen '\x00' ≠
        c.getD cmd.autocompletedLen '\x00'))

theorem isCandidate_length {pfx name : List Char}
    (h : isCandidate pfx name = true) : pfx.length ≤ name.length := by
  unfold isCandidate at h
  simp only [Bool.and_eq_true, decide_eq_true_eq] at h
  exact h.1

theorem prefixMatches_getD : ∀ (pfx name : List Char),
    prefixMatches pfx name = true →
    ∀ j, j < pfx.length → name.getD j '\x00' = pfx.getD j '\x00' := by
  intro pfx
  induction pfx with
  | nil => intro name _ j hj; simp at hj
  | cons p ps ih =>
    intro name h j hj
    rcases name with _ | ⟨n, ns⟩
    · simp [prefixMatches] at h
    · simp only [prefixMatches, Bool.and_eq_true, decide_eq_true_eq] at h
      rcases j with _ | j'
      · simpa using h.1.symm
      · simp only [List.getD_cons_succ]
        exact ih ns h.2 j' (by simpa using hj)

theorem isCandidate_getD {pfx name : List Char}
    (h : isCandidate pfx name = true) :
    ∀ j, j < pfx.length → name.getD j '\x00' = pfx.getD j '\x00' := by
  unfold isCandidate at h
  simp only [Bool.and_eq_true, decide_eq_true_eq] at h
  exact prefixMatches_getD pfx name h.2

/-- Characterisation of the LCP loop result: bounds, agreement below the
result, and a mismatch at the result when it is below `stop`. -/
theorem mismatchAux_none : ∀ (k j : Nat) (a b : List Char),
    mismatchAux a b j k = none →
    ∀ i, j ≤ i → i < j + k → a.getD i '\x00' = b.getD i '\x00' := by
  intro k
  induction k with
  | zero => intro j a b _ i h1 h2; omega
  | succ m ih =>
    intro j a b h i h1 h2
    unfold mismatchAux at h
    by_cases hm : a.getD j '\x00' ≠ b.getD j '\x00'
    · rw [if_pos hm] at h
      exact absurd h (by simp)
    · rw [if_neg hm] at h
      push_neg at hm
      rcases Nat.eq_or_lt_of_le h1 with he | hl
      · exact he ▸ hm
      · exact ih (j + 1) a b h i hl (by omega)

theorem mismatchAux_some : ∀ (k j r : Nat) (a b : List Char),
    mismatchAux a b j k = some r →
    j ≤ r ∧ r < j + k ∧ a.getD r '\x00' ≠ b.getD r '\x00' ∧
    ∀ i, j ≤ i → i < r → a.getD i '\x00' = b.getD i '\x00' := by
  intro k
  induction k with
  | zero => intro j r a b h; simp [mismatchAux] at h
  | succ m ih =>
    intro j r a b h
    unfold mismatchAux at h
    by_cases hm : a.getD j '\x00' ≠ b.getD j '\x00'
    · rw [if_pos hm] at h
      obtain rfl : j = r := by simpa using h
      exact ⟨Nat.le_refl _, by omega, hm, fun i h1 h2 => by omega⟩
    · rw [if_neg hm] at h
      obtain ⟨h1, h2, h3, h4⟩ := ih (j + 1) r a b h
      push_neg at hm
      refine ⟨by omega, by omega, h3, ?_⟩
      intro i hi1 hi2
      rcases Nat.eq_or_lt_of_le hi1 with he | hl
      · exact he ▸ hm
      · exact h4 i hl hi2

theorem lcpBound_le (a b : List Char) (start stop : Nat) :
    lcpBound a b start stop ≤ stop := by
  unfold lcpBound
  rcases h : mismatchAux a b start (stop - start) with _ | r
  · simp
  · obtain ⟨h1, h2, _, _⟩ := mismatchAux_some _ _ _ a b h
    simp only [Option.getD_some]
    omega

theorem lcpBound_ge_start (a b : List Char) (start stop : Nat)
    (h : start ≤ stop) : start ≤ lcpBound a b start stop := by
  unfold lcpBound
  rcases hm : mismatchAux a b start (stop - start) with _ | r
  · simpa using h
  · obtain ⟨h1, _, _, _⟩ := mismatchAux_some _ _ _ a b hm
    simpa using h1

theorem lcpBound_agree (a b : List Char) (start stop : Nat) :
    ∀ i, start ≤ i → i < lcpBound a b start stop →
    a.getD i '\x00' = b.getD i '\x00' := by
  intro i h1 h2
  unfold lcpBound at h2
  rcases hm : mismatchAux a b start (stop - start) with _ | r
  · rw [hm] at h2
    simp only [Option.getD_none] at h2
    exact mismatchAux_none _ _ a b hm i h1 (by omega)
  · rw [hm] at h2
    simp only [Option.getD_some] at h2
    obtain ⟨_, _, _, h4⟩ := mismatchAux_some _ _ _ a b hm
    exact h4 i h1 h2

theorem lcpBound_mismatch (a b : List Char) (start stop : Nat)
    (h : lcpBound a b start stop < stop) :
    a.getD (lcpBound a b start stop) '\x00' ≠
      b.getD (lcpBound a b start stop) '\x00' := by
  unfold lcpBound at h ⊢
  rcases hm : mismatchAux a b start (stop - start) with _ | r
  · rw [hm] at h
    simp at h
  · obtain ⟨_, _, h3, _⟩ := mismatchAux_some _ _ _ a b hm
    simpa using h3

theorem acStep_skip (cmdSize : Nat) (pfx : List Char)
    (cmd : AutocompletedCommand) (name : List Char)
    (h : isCandidate pfx name = false) :
    acStep cmdSize pfx cmd name = cmd := by
  simp [acStep, h]

theorem acStep_first (pfx name : List Char)
    (hc : isCandidate pfx name = true) :
    acStep pfx.length pfx ⟨none, 0, 0⟩ name = ⟨some name, name.length, 1⟩ := by
  simp [acStep, hc]

/-- The binding-loop invariant is preserved when a new candidate is
processed. -/
theorem ACInv_step (pfx : List Char) (cs : List (List Char))
    (cmd : AutocompletedCommand) (name : List Char)
    (hinv : ACInv pfx cs cmd) (hc : isCandidate pfx name = true) :
    ACInv pfx (cs ++ [name]) (acStep pfx.length pfx cmd name) := by
  rcases cs with _ | ⟨c0, rest⟩
  · simp only [ACInv] at hinv
    rw [hinv, acStep_first pfx name hc]
    simp only [List.nil_append]
    refine ⟨by simp, by simp, isCandidate_length hc, ?_, ?_, ?_⟩
    · intro c hcmem
      simp only [List.mem_singleton] at hcmem
      exact hcmem ▸ hc
    · intro c hcmem
      simp only [List.mem_singleton] at hcmem
      subst hcmem
      exact ⟨Nat.le_refl _, fun j _ => rfl⟩
    · exact Or.inl ⟨name, by simp, rfl⟩
  · obtain ⟨h1, h2, h3, h4, h5, h6⟩ := hinv
    have hcount : cmd.candidateCount = rest.length + 1 := by simpa using h2
    have hstep : acStep pfx.length pfx cmd name =
        ⟨some c0,
          lcpBound c0 name pfx.length
            (if name.length < cmd.autocompletedLen then name.length
              else cmd.autocompletedLen),
          cmd.candidateCount + 1⟩ := by
      unfold acStep
      simp [hc, hcount, h1]
    rw [hstep]
    set al1 := if name.length < cmd.autocompletedLen then name.length
      else cmd.autocompletedLen with hal1
    set al2 := lcpBound c0 name pfx.length al1 with hal2
    have hal1_le : al1 ≤ cmd.autocompletedLen := by
      rw [hal1]; split <;> omega
    have hal1_name : al1 ≤ name.length := by
      rw [hal1]; split <;> omega
    have hal1_pfx : pfx.length ≤ al1 := by
      have hn := isCandidate_length hc
      rw [hal1]; split <;> omega
    have hal2_le : al2 ≤ al1 := lcpBound_le _ _ _ _
    have hal2_pfx : pfx.length ≤ al2 := lcpBound_ge_start _ _ _ _ hal1_pfx
    have hmemc0 : c0 ∈ c0 :: rest := List.mem_cons_self _ _
    have hshape : (c0 :: rest) ++ [name] = c0 :: (rest ++ [name]) := by simp
    rw [hshape]
    simp only [ACInv]
    refine ⟨trivial, ?_, hal2_pfx, ?_, ?_, ?_⟩
    · simp only [List.length_cons, List.length_append, List.length_nil]
      omega
    · intro c hcmem
      rcases List.mem_cons.mp hcmem with hfirst | hmem2
      · exact h4 c (hfirst ▸ hmemc0)
      · rcases List.mem_append.mp hmem2 with hmem3 | hmem4
        · exact h4 c (List.mem_cons_of_mem _ hmem3)
        · simp only [List.mem_singleton] at hmem4
          exact hmem4 ▸ hc
    · intro c hcmem
      rcases List.mem_cons.mp hcmem with hfirst | hmem2
      · subst hfirst
        obtain ⟨hle, hag⟩ := h5 c hmemc0
        exact ⟨by omega, fun j hj => hag j (by omega)⟩
      · rcases List.mem_append.mp hmem2 with hmem3 | hmem4
        · obtain ⟨hle, hag⟩ := h5 c (List.mem_cons_of_mem _ hmem3)
          exact ⟨by omega, fun j hj => hag j (by omega)⟩
        · simp only [List.mem_singleton] at hmem4
          subst hmem4
          refine ⟨by omega, ?_⟩
          intro j hj
          by_cases hjp : j < pfx.length
          · rw [isCandidate_getD (h4 c0 hmemc0) j hjp,
              isCandidate_getD hc j hjp]
          · exact lcpBound_agree c0 c pfx.length al1 j (by omega) hj
    · by_cases hlt2 : al2 < al1
      · refine Or.inr ⟨name, by simp, ?_⟩
        exact lcpBound_mismatch c0 name pfx.length al1 hlt2
      · have heq : al2 = al1 := by omega
        by_cases hltn : name.length < cmd.autocompletedLen
        · refine Or.inl ⟨name, by simp, ?_⟩
          rw [heq, hal1]
          simp [hltn]
        · have heq2 : al2 = cmd.autocompletedLen := by
            rw [heq, hal1]
            simp [hltn]
          rcases h6 with ⟨c, hcm, hcl⟩ | ⟨c, hcm, hcl⟩
          · refine Or.inl ⟨c, ?_, by omega⟩
            rcases List.mem_cons.mp hcm with hx | hx
            · exact hx ▸ List.mem_cons_self _ _
            · exact List.mem_cons_of_mem _ (List.mem_append_left _ hx)
          · refine Or.inr ⟨c, ?_, ?_⟩
            · rcases List.mem_cons.mp hcm with hx | hx
              · exact hx ▸ List.mem_cons_self _ _
              · exact List.mem_cons_of_mem _ (List.mem_append_left _ hx)
            · rw [heq2]
              exact hcl

/-- Folding the binding loop over any suffix of the table extends the
candidate list accordingly and preserves the invariant. -/
theorem acFold_inv (pfx : List Char) : ∀ (l : List (List Char))
    (cmd : AutocompletedCommand) (cs : List (List Char)),
    ACInv pfx cs cmd →
    ACInv pfx (cs ++ candidates l pfx) (l.foldl (acStep pfx.length pfx) cmd) := by
  intro l
  induction l with
  | nil =>
    intro cmd cs h
    simpa [candidates] using h
  | cons b rest ih =>
    intro cmd cs h
    by_cases hc : isCandidate pfx b = true
    · have h2 := ACInv_step pfx cs cmd b h hc
      have h3 := ih (acStep pfx.length pfx cmd b) (cs ++ [b]) h2
      have hl : cs ++ candidates (b :: rest) pfx =
          (cs ++ [b]) ++ candidates rest pfx := by
        simp [candidates, List.filter_cons, hc]
      rw [hl]
      simpa using h3
    · have hb : isCandidate pfx b = false := by
        simpa using hc
      have h3 := ih cmd cs h
      have hl : cs ++ candidates (b :: rest) pfx = cs ++ candidates rest pfx := by
        simp [candidates, List.filter_cons, hb]
      rw [hl]
      simpa [acStep_skip _ _ _ _ hb] using h3

/-- Two lists that agree pointwise below `m` (and are at least `m` long)
have equal `m`-prefixes. -/
theorem take_eq_of_agree (a b : List Char) (m : Nat) (ha : m ≤ a.length)
    (hb : m ≤ b.length) (h : agreeUpTo a b m) : a.take m = b.take m := by
  apply List.ext_getElem
  · simp
    omega
  · intro i h1 h2
    simp only [List.getElem_take]
    have h3 := h i (by simp [List.length_take] at h1; omega)
    rwa [List.getD_eq_getElem, List.getD_eq_getElem] at h3

/-- Conversely, equal `m`-prefixes give pointwise agreement below `m`. -/
theorem getD_eq_of_take_eq (a b : List Char) (m j : Nat) (hj : j < m)
    (h : a.take m = b.take m) : a.getD j '\x00' = b.getD j '\x00' := by
  have h2 := congrArg (fun l => l.getD j '\x00') h
  simp only [List.getD_eq_getElem?_getD] at h2 ⊢
  rwa [List.getElem?_take_of_lt hj, List.getElem?_take_of_lt hj] at h2

/-- C2: whenever the autocompletion computation finds at least two
candidates for a non-empty prefix `p` (with `cmdSize = |p|`, as at both call
sites where the prefix is the command buffer), the returned
`autocompletedLen` is at least `|p|`, at most every candidate's length, all
candidates agree on their first `autocompletedLen` bytes, and
`autocompletedLen` is the largest such value (the longest common prefix of
all candidates, clamped to the shortest candidate). -/
theorem claim_C2_autocomplete_lcp (bindings : List (List Char))
    (pfx : List Char) (cmdSize : Nat) (hsz : cmdSize = pfx.length)
    (h2 : 2 ≤ (getAutocompletedCommand bindings pfx cmdSize).candidateCount) :
    pfx.length ≤ (getAutocompletedCommand bindings pfx cmdSize).autocompletedLen ∧
    (∀ c ∈ candidates bindings pfx,
      (getAutocompletedCommand bindings pfx cmdSize).autocompletedLen ≤
        c.length) ∧
    (∀ c ∈ candidates bindings pfx, ∀ c' ∈ candidates bindings pfx,
      c.take (getAutocompletedCommand bindings pfx cmdSize).autocompletedLen =
      c'.take (getAutocompletedCommand bindings pfx cmdSize).autocompletedLen) ∧
    (∀ m, (∀ c ∈ candidates bindings pfx, m ≤ c.length) →
      (∀ c ∈ candidates bindings pfx, ∀ c' ∈ candidates bindings pfx,
        c.take m = c'.take m) →
      m ≤ (getAutocompletedCommand bindings pfx cmdSize).autocompletedLen) := by
  subst hsz
  by_cases hcond : bindings.length = 0 ∨ pfx.length = 0
  · exfalso
    unfold getAutocompletedCommand at h2
    rw [if_pos hcond] at h2
    simp at h2
  · have hr : getAutocompletedCommand bindings pfx pfx.length =
        bindings.foldl (acStep pfx.length pfx) ⟨none, 0, 0⟩ := by
      unfold getAutocompletedCommand
      rw [if_neg hcond]
    have hinv := acFold_inv pfx bindings ⟨none, 0, 0⟩ [] (by simp [ACInv])
    simp only [List.nil_append] at hinv
    rw [hr] at h2 ⊢
    rcases hcs : candidates bindings pfx with _ | ⟨c0, rest⟩
    · rw [hcs] at hinv
      simp only [ACInv] at hinv
      rw [hinv] at h2
      simp at h2
    · rw [hcs] at hinv
      obtain ⟨h1, hcnt, h3, h4, h5, h6⟩ := hinv
      set r := bindings.foldl (acStep pfx.length pfx) ⟨none, 0, 0⟩ with hrr
      refine ⟨h3, ?_, ?_, ?_⟩
      · intro c hcmem
        exact (h5 c hcmem).1
      · intro c hcmem c' hcmem'
        have hag : agreeUpTo c c' r.autocompletedLen := by
          intro j hj
          rw [← (h5 c hcmem).2 j hj, (h5 c' hcmem').2 j hj]
        exact take_eq_of_agree c c' r.autocompletedLen (h5 c hcmem).1
          (h5 c' hcmem').1 hag
      · intro m hlen hagree
        rcases h6 with ⟨c, hcm, hcl⟩ | ⟨c, hcm, hcl⟩
        · have := hlen c hcm
          omega
        · by_contra hgt
          push_neg at hgt
          have hc0 : c0 ∈ c0 :: rest := List.mem_cons_self _ _
          have htake := hagree c0 hc0 c hcm
          have := getD_eq_of_take_eq c0 c m r.autocompletedLen hgt htake
          exact hcl this

/-- C2 witness: the theorem applied to the table `{get-led, get-adc}` with
prefix `"g"`. -/
theorem claim_C2_autocomplete_lcp_witness :
    (['g'] : List Char).length ≤
      (getAutocompletedCommand
        [['g', 'e', 't', '-', 'l', 'e', 'd'], ['g', 'e', 't', '-', 'a', 'd', 'c']]
        ['g'] 1).autocompletedLen :=
  (claim_C2_autocomplete_lcp
    [['g', 'e', 't', '-', 'l', 'e', 'd'], ['g', 'e', 't', '-', 'a', 'd', 'c']]
    ['g'] 1 (by decide) (by decide)).1

/-- C9: whenever the autocompletion computation over the command buffer (as
prefix, with `cmdSize` equal to its length) reports at least one candidate,
the returned `firstCandidate` is non-null and `cmdSize ≤ autocompletedLen ≤
|firstCandidate|`; hence every read `firstCandidate[i]` performed by
`printLiveAutocompletion` for `cmdSize ≤ i < autocompletedLen` is inside the
candidate's name. -/
theorem claim_C9_autocomplete_bounds (bindings : List (List Char))
    (pfx : List Char) (cmdSize : Nat) (hsz : cmdSize = pfx.length)
    (h1 : 1 ≤ (getAutocompletedCommand bindings pfx cmdSize).candidateCount) :
    (getAutocompletedCommand bindings pfx cmdSize).firstCandidate ≠ none ∧
    cmdSize ≤ (getAutocompletedCommand bindings pfx cmdSize).autocompletedLen ∧
    (getAutocompletedCommand bindings pfx cmdSize).autocompletedLen ≤
      ((getAutocompletedCommand bindings pfx cmdSize).firstCandidate.getD
        []).length ∧
    (∀ i, cmdSize ≤ i →
      i < (getAutocompletedCommand bindings pfx cmdSize).autocompletedLen →
      i < ((getAutocompletedCommand bindings pfx cmdSize).firstCandidate.getD
        []).length) := by
  subst hsz
  by_cases hcond : bindings.length = 0 ∨ pfx.length = 0
  · exfalso
    unfold getAutocompletedCommand at h1
    rw [if_pos hcond] at h1
    simp at h1
  · have hr : getAutocompletedCommand bindings pfx pfx.length =
        bindings.foldl (acStep pfx.length pfx) ⟨none, 0, 0⟩ := by
      unfold getAutocompletedCommand
      rw [if_neg hcond]
    have hinv := acFold_inv pfx bindings ⟨none, 0, 0⟩ [] (by simp [ACInv])
    simp only [List.nil_append] at hinv
    rw [hr] at h1 ⊢
    rcases hcs : candidates bindings pfx with _ | ⟨c0, rest⟩
    · rw [hcs] at hinv
      simp only [ACInv] at hinv
      rw [hinv] at h1
      simp at h1
    · rw [hcs] at hinv
      obtain ⟨hfc, hcnt, hpl, h4, h5, h6⟩ := hinv
      have hc0 : c0 ∈ c0 :: rest := List.mem_cons_self _ _
      have hlen := (h5 c0 hc0).1
      refine ⟨by rw [hfc]; simp, hpl, ?_, ?_⟩
      · rw [hfc]
        simpa using hlen
      · intro i hi1 hi2
        rw [hfc]
        simp only [Option.getD_some]
        omega

/-- C9 witness: the bounds theorem applied to the table `{help}` with prefix
`"h"`. -/
theorem claim_C9_autocomplete_bounds_witness :
    (getAutocompletedCommand [['h', 'e', 'l', 'p']] ['h'] 1).autocompletedLen ≤
      ((getAutocompletedCommand [['h', 'e', 'l', 'p']]
        ['h'] 1).firstCandidate.getD []).length :=
  (claim_C9_autocomplete_bounds [['h', 'e', 'l', 'p']] ['h'] 1
    (by decide) (by decide)).2.2.1

/-! ### History store (CliHistory)

`struct CliHistory`: a byte arena `buf` of physical length `bufferSize`,
storing the live items MRU-first as NUL-separated strings in a contiguous
prefix, plus the navigation `current` cursor and `itemsCount`. -/

structure CliHistory where
  buf : List Char
  bufferSize : Nat
  current : Nat
  itemsCount : Nat
deriving DecidableEq, Repr

/-- `historyGet`: 1-based item access; `none` models `NULL`. -/
def historyGet (history : CliHistory) (item : Nat) : Option (List Char) :=
  if item = 0 ∨ item > history.itemsCount then none
  else embeddedCliGetToken history.buf item

/-- The search loop of `historyRemove`: scan token positions `pos, pos+1, …`
(`fuel` many) and return the position and buffer offset of the first item
whose C string equals `str` (`strcmp == 0`).  A `NULL` item pointer
(undefined behaviour in C, impossible on a well-formed arena) skips the
position. -/
def historyFindAux (buf str : List Char) : Nat → Nat → Option (Nat × Nat)
  | _, 0 => none
  | pos, k + 1 =>
    match getTokenPosition buf pos with
    | some off =>
      if asCString (buf.drop off) = str then some (pos, off)
      else historyFindAux buf str (pos + 1) k
    | none => historyFindAux buf str (pos + 1) k

/-- `historyRemove`: find the first item equal to `str`; when found,
decrement `itemsCount` and (unless it was the last, i.e. oldest, item) shift
everything to its right left by `len + 1` with `memmove` — the final
`len + 1` bytes keep their old values. -/
def historyRemove (history : CliHistory) (str : List Char) : CliHistory :=
  if history.itemsCount = 0 then history
  else
    match historyFindAux history.buf str 1 history.itemsCount with
    | none => history
    | some (pos, off) =>
      let count' := history.itemsCount - 1
      if pos = count' + 1 then { history with itemsCount := count' }
      else
        let len := (asCString (history.buf.drop off)).length
        { history with
          itemsCount := count',
          buf := history.buf.take off ++ history.buf.drop (off + len + 1) ++
            history.buf.drop (history.bufferSize - (len + 1)) }

/-- The eviction loop of `historyPut`: while items remain and the free space
(`bufferSize - usedSize`, an exact subtraction on a well-formed arena where
`usedSize ≤ bufferSize`) is under `len + 1`, drop the oldest item.  Returns
the surviving `itemsCount` and the `usedSize` computed in the last iteration
(the C variable is uninitialised — and unused — when the loop never runs). -/
def historyEvict (buf : List Char) (bufferSize len : Nat) : Nat → Nat × Nat
  | 0 => (0, 0)
  | k + 1 =>
    let off := (getTokenPosition buf (k + 1)).getD 0
    let itemLen := (asCString (buf.drop off)).length
    let usedSize := off + itemLen + 1
    if len + 1 ≤ bufferSize - usedSize then (k + 1, usedSize)
    else historyEvict buf bufferSize len k

/-- `historyPut`: fail silently when the string cannot ever fit; otherwise
remove a previous copy, evict oldest items until the string fits, shift the
surviving `usedSize` bytes right by `len + 1` (`memmove`), copy the string
and its NUL to offset 0 (`memcpy`), and increment `itemsCount`.  (The C
function also returns `false` exactly in the first branch.) -/
def historyPut (history : CliHistory) (str : List Char) : CliHistory :=
  let len := str.length
  if history.bufferSize < len + 1 then history
  else
    let h1 := historyRemove history str
    let ev := historyEvict h1.buf h1.bufferSize len h1.itemsCount
    let buf2 :=
      if 0 < ev.1 then
        str ++ ['\x00'] ++ h1.buf.take ev.2 ++ h1.buf.drop (len + 1 + ev.2)
      else
        str ++ ['\x00'] ++ h1.buf.drop (len + 1)
    { h1 with itemsCount := ev.1 + 1, buf := buf2 }

/-- The arena layout of a well-formed history: the live items flattened
MRU-first, each followed by its NUL. -/
def flattenItems : List (List Char) → List Char
  | [] => []
  | s :: rest => s ++ '\x00' :: flattenItems rest

/-- A live history item: non-empty and NUL-free. -/
def goodItem (s : List Char) : Prop := s ≠ [] ∧ '\x00' ∉ s

/-- Byte offset of the `j`-th (0-based) item inside the flattened arena. -/
def offsetOf : List (List Char) → Nat → Nat
  | _, 0 => 0
  | [], _ + 1 => 0
  | s :: rest, j + 1 => s.length + 1 + offsetOf rest j

theorem flattenItems_append : ∀ (a b : List (List Char)),
    flattenItems (a ++ b) = flattenItems a ++ flattenItems b := by
  intro a b
  induction a with
  | nil => simp [flattenItems]
  | cons s rest ih => simp [flattenItems, ih]

theorem offsetOf_eq_flatten_take : ∀ (items : List (List Char)) (j : Nat),
    offsetOf items j = (flattenItems (items.take j)).length := by
  intro items
  induction items with
  | nil => intro j; cases j <;> simp [offsetOf, flattenItems]
  | cons s rest ih =>
    intro j
    cases j with
    | zero => simp [offsetOf, flattenItems]
    | succ j' => simp [offsetOf, flattenItems, ih j']; omega

theorem takeWhile_append_nul (s rest : List Char) (h : '\x00' ∉ s) :
    (s ++ '\x00' :: rest).takeWhile (· ≠ '\x00') = s := by
  induction s with
  | nil => simp
  | cons c cs ih =>
    have hc : c ≠ '\x00' := by
      intro hcontra
      exact h (hcontra ▸ List.mem_cons_self _ _)
    have hcs : '\x00' ∉ cs := fun hm => h (List.mem_cons_of_mem _ hm)
    simp only [List.cons_append, List.takeWhile_cons]
    rw [if_pos (by simpa using hc), ih hcs]

/-- Unfolding equation of the token-position loop at a cons cell. -/
theorem getTokenPositionAux_cons (x : Char) (l : List Char) (i tc pos : Nat) :
    getTokenPositionAux (x :: l) i tc pos =
      if tc = pos then (if x ≠ '\x00' then some i else none)
      else if x = '\x00' then
        (match l with
          | [] => none
          | d :: _ => if d = '\x00' then none
              else getTokenPositionAux l (i + 1) (tc + 1) pos)
      else getTokenPositionAux l (i + 1) tc pos := rfl

/-- Walking the token-position loop across one complete item advances the
index past the item and its NUL and bumps the token counter. -/
theorem getTokenPositionAux_walk : ∀ (item rest : List Char) (i tc pos : Nat),
    tc ≠ pos → '\x00' ∉ item →
    (∃ c, rest.head? = some c ∧ c ≠ '\x00') →
    getTokenPositionAux (item ++ '\x00' :: rest) i tc pos =
      getTokenPositionAux rest (i + (item.length + 1)) (tc + 1) pos := by
  intro item
  induction item with
  | nil =>
    intro rest i tc pos hne _ hhead
    obtain ⟨c, hc1, hc2⟩ := hhead
    rcases rest with _ | ⟨d, ds⟩
    · simp at hc1
    · simp only [List.head?_cons, Option.some.injEq] at hc1
      subst hc1
      rw [List.nil_append, getTokenPositionAux_cons, if_neg hne, if_pos rfl]
      simp only [List.length_nil, Nat.zero_add]
      rw [if_neg (by simpa using hc2)]
  | cons a as ih =>
    intro rest i tc pos hne hnul hhead
    have ha : a ≠ '\x00' := by
      intro hcontra
      exact hnul (hcontra ▸ List.mem_cons_self _ _)
    have has : '\x00' ∉ as := fun hm => hnul (List.mem_cons_of_mem _ hm)
    rw [List.cons_append, getTokenPositionAux_cons, if_neg hne, if_neg ha]
    rw [ih rest (i + 1) tc pos hne has hhead]
    congr 1
    simp only [List.length_cons]
    omega

/-- On a well-formed arena, the token-position loop finds the `j`-th item at
its flattened offset. -/
theorem getTokenPositionAux_flatten : ∀ (j : Nat) (items : List (List Char))
    (pad : List Char) (i tc : Nat),
    (∀ s ∈ items, goodItem s) → j < items.length →
    getTokenPositionAux (flattenItems items ++ pad) i tc (tc + j) =
      some (i + offsetOf items j) := by
  intro j
  induction j with
  | zero =>
    intro items pad i tc hwf hj
    rcases items with _ | ⟨it, more⟩
    · simp at hj
    · obtain ⟨hne, hnul⟩ := hwf it (List.mem_cons_self _ _)
      rcases it with _ | ⟨c, cs⟩
      · exact absurd rfl hne
      · have hc : c ≠ '\x00' := by
          intro hcontra
          exact hnul (hcontra ▸ List.mem_cons_self _ _)
        have hflat : flattenItems ((c :: cs) :: more) ++ pad =
            c :: (cs ++ '\x00' :: (flattenItems more ++ pad)) := by
          simp [flattenItems]
        rw [Nat.add_zero, hflat, getTokenPositionAux_cons, if_pos rfl,
          if_pos hc]
        simp [offsetOf]
  | succ j' ih =>
    intro items pad i tc hwf hj
    rcases items with _ | ⟨it, more⟩
    · simp at hj
    · have hmore : j' < more.length := by
        simpa using hj
      have hhead : ∃ c, (flattenItems more ++ pad).head? = some c ∧
          c ≠ '\x00' := by
        rcases more with _ | ⟨m0, ms⟩
        · simp at hmore
        · obtain ⟨hne0, hnul0⟩ := hwf m0
            (List.mem_cons_of_mem _ (List.mem_cons_self _ _))
          rcases m0 with _ | ⟨c, cs⟩
          · exact absurd rfl hne0
          · refine ⟨c, by simp [flattenItems], ?_⟩
            intro hcontra
            exact hnul0 (hcontra ▸ List.mem_cons_self _ _)
      have hnul : '\x00' ∉ it := (hwf it (List.mem_cons_self _ _)).2
      have hflat : flattenItems (it :: more) ++ pad =
          it ++ '\x00' :: (flattenItems more ++ pad) := by
        simp [flattenItems]
      rw [hflat, getTokenPositionAux_walk it (flattenItems more ++ pad) i tc
        (tc + (j' + 1)) (by omega) hnul hhead]
      have harith : tc + (j' + 1) = (tc + 1) + j' := by omega
      rw [harith, ih more pad (i + (it.length + 1)) (tc + 1)
        (fun s hs => hwf s (List.mem_cons_of_mem _ hs)) hmore]
      congr 1
      simp only [offsetOf]
      omega

/-- Dropping the flattened prefix of the first `j` items exposes the
flattened suffix. -/
theorem drop_flatten (items : List (List Char)) (pad : List Char) (j : Nat) :
    (flattenItems items ++ pad).drop (offsetOf items j) =
      flattenItems (items.drop j) ++ pad := by
  have hsplit : flattenItems items =
      flattenItems (items.take j) ++ flattenItems (items.drop j) := by
    rw [← flattenItems_append, List.take_append_drop]
  rw [offsetOf_eq_flatten_take, hsplit, List.append_assoc, List.drop_left]

/-- The C string at the offset of the `j`-th item is that item. -/
theorem asCString_at_offset (items : List (List Char)) (pad : List Char)
    (j : Nat) (hwf : ∀ s ∈ items, goodItem s) (hj : j < items.length) :
    asCString ((flattenItems items ++ pad).drop (offsetOf items j)) =
      items.getD j [] := by
  rw [drop_flatten]
  have hdrop : items.drop j = items.getD j [] :: items.drop (j + 1) := by
    rw [List.getD_eq_getElem items [] hj]
    exact List.drop_eq_getElem_cons hj
  rw [hdrop]
  simp only [flattenItems, List.append_assoc, List.cons_append]
  unfold asCString
  have hnul : '\x00' ∉ items.getD j [] := by
    have hmem : items.getD j [] ∈ items := by
      rw [List.getD_eq_getElem items [] hj]
      exact List.getElem_mem _
    exact (hwf _ hmem).2
  exact takeWhile_append_nul _ _ hnul

/-- `getTokenPosition` on a well-formed arena. -/
theorem getTokenPosition_flatten (items : List (List Char)) (pad : List Char)
    (j : Nat) (hwf : ∀ s ∈ items, goodItem s) (hj : j < items.length) :
    getTokenPosition (flattenItems items ++ pad) (j + 1) =
      some (offsetOf items j) := by
  unfold getTokenPosition
  rw [if_neg (by omega)]
  have h := getTokenPositionAux_flatten j items pad 0 1 hwf hj
  rw [show j + 1 = 1 + j by omega]
  simpa using h

/-- Whenever `historyPut` does not fail on capacity, the new buffer starts
with the inserted string and its NUL. -/
theorem historyPut_cons (h : CliHistory) (s : List Char)
    (hcap : s.length + 1 ≤ h.bufferSize) :
    ∃ rest, (historyPut h s).buf = s ++ '\x00' :: rest := by
  simp only [historyPut]
  rw [if_neg (by omega)]
  split
  · exact ⟨_, by simp only [List.append_assoc, List.singleton_append]; rfl⟩
  · exact ⟨_, by simp only [List.append_assoc, List.singleton_append]; rfl⟩

/-- Whenever `historyPut` does not fail on capacity, the item count becomes
positive. -/
theorem historyPut_count_pos (h : CliHistory) (s : List Char)
    (hcap : s.length + 1 ≤ h.bufferSize) :
    1 ≤ (historyPut h s).itemsCount := by
  simp only [historyPut]
  rw [if_neg (by omega)]
  simp

/-- C4 counterexample: the claim fails for the empty command string.  With
an empty history of capacity 4, `put("")` succeeds (`itemsCount` becomes 1),
but `historyGet 1` returns `NULL` — not a byte-identical copy of `""` —
because the stored item starts with its own terminating NUL. -/
theorem claim_C4_counterexample :
    (historyPut ⟨List.replicate 4 '\x00', 4, 0, 0⟩ []).itemsCount = 1 ∧
    historyGet (historyPut ⟨List.replicate 4 '\x00', 4, 0, 0⟩ []) 1 = none := by
  decide

/-- C4 (amended): for every history state and every NON-EMPTY (NUL-free)
command string `s` with `|s| + 1 ≤` the history capacity, after `put(s)` the
string `s` is item 1 (MRU position) and `historyGet 1` returns a
byte-identical copy of `s`.  (For the empty string the claim fails; see the
counterexample.) -/
theorem claim_C4_history_put_mru (h : CliHistory) (s : List Char)
    (hne : s ≠ []) (hnul : '\x00' ∉ s) (hcap : s.length + 1 ≤ h.bufferSize) :
    (historyGet (historyPut h s) 1).map asCString = some s := by
  obtain ⟨rest, hbuf⟩ := historyPut_cons h s hcap
  have hcount := historyPut_count_pos h s hcap
  rcases s with _ | ⟨c, cs⟩
  · exact absurd rfl hne
  have hc : c ≠ '\x00' := fun hx => hnul (hx ▸ List.mem_cons_self _ _)
  have hget : embeddedCliGetToken (historyPut h (c :: cs)).buf 1 =
      some ((c :: cs) ++ '\x00' :: rest) := by
    unfold embeddedCliGetToken getTokenPosition
    rw [if_neg (by omega), hbuf, List.cons_append, getTokenPositionAux_cons,
      if_pos rfl, if_pos hc]
    rfl
  unfold historyGet
  rw [if_neg (by omega), hget]
  show some (asCString ((c :: cs) ++ '\x00' :: rest)) = some (c :: cs)
  exact congrArg some (takeWhile_append_nul (c :: cs) rest hnul)

/-- C4 witness: the amended theorem applied at a concrete input. -/
theorem claim_C4_history_put_mru_witness :
    (historyGet (historyPut ⟨List.replicate 4 '\x00', 4, 0, 0⟩ ['a']) 1).map
      asCString = some ['a'] :=
  claim_C4_history_put_mru ⟨List.replicate 4 '\x00', 4, 0, 0⟩ ['a']
    (by decide) (by decide) (by decide)

theorem drop_eq_getD_cons (items : List (List Char)) (m : Nat)
    (hm : m < items.length) :
    items.drop m = items.getD m [] :: items.drop (m + 1) := by
  rw [List.getD_eq_getElem _ _ hm]
  exact List.drop_eq_getElem_cons hm

theorem offsetOf_succ (items : List (List Char)) (m : Nat)
    (hm : m < items.length) :
    offsetOf items (m + 1) =
      offsetOf items m + (items.getD m []).length + 1 := by
  rw [offsetOf_eq_flatten_take, offsetOf_eq_flatten_take, List.take_succ]
  rw [List.getElem?_eq_getElem hm]
  rw [flattenItems_append]
  have hgd : (items.getD m []) = items[m] := List.getD_eq_getElem _ _ hm
  rw [hgd]
  simp [flattenItems]
  omega

theorem offsetOf_at_length (items : List (List Char)) :
    offsetOf items items.length = (flattenItems items).length := by
  rw [offsetOf_eq_flatten_take, List.take_length]

/-- Splitting the flattened arena at the `m`-th item. -/
theorem flatten_split_at (items : List (List Char)) (m : Nat)
    (hm : m < items.length) :
    flattenItems items = flattenItems (items.take m) ++
      (items.getD m [] ++ '\x00' :: flattenItems (items.drop (m + 1))) := by
  have h1 : flattenItems items =
      flattenItems (items.take m) ++ flattenItems (items.drop m) := by
    rw [← flattenItems_append, List.take_append_drop]
  rw [h1, drop_eq_getD_cons items m hm]
  simp [flattenItems]

theorem historyFindAux_succ_some (buf str : List Char) (pos k off : Nat)
    (h : getTokenPosition buf pos = some off) :
    historyFindAux buf str pos (k + 1) =
      if asCString (buf.drop off) = str then some (pos, off)
      else historyFindAux buf str (pos + 1) k := by
  show (match getTokenPosition buf pos with
    | some off2 => if asCString (buf.drop off2) = str then some (pos, off2)
        else historyFindAux buf str (pos + 1) k
    | none => historyFindAux buf str (pos + 1) k) =
    if asCString (buf.drop off) = str then some (pos, off)
    else historyFindAux buf str (pos + 1) k
  rw [h]

/-- On a well-formed arena the `historyRemove` search loop finds an item
equal to `str` whenever one is present, and reports its position and
offset. -/
theorem historyFindAux_found : ∀ (k j : Nat) (items : List (List Char))
    (pad s : List Char), (∀ t ∈ items, goodItem t) →
    j + k = items.length → s ∈ items.drop j →
    ∃ m, j ≤ m ∧ m < items.length ∧ items.getD m [] = s ∧
      historyFindAux (flattenItems items ++ pad) s (j + 1) k =
        some (m + 1, offsetOf items m) := by
  intro k
  induction k with
  | zero =>
    intro j items pad s _ hlen hmem
    rw [List.drop_eq_nil_of_le (by omega)] at hmem
    simp at hmem
  | succ k' ih =>
    intro j items pad s hwf hlen hmem
    have hj : j < items.length := by omega
    rw [historyFindAux_succ_some _ _ _ _ _
      (getTokenPosition_flatten items pad j hwf hj)]
    rw [asCString_at_offset items pad j hwf hj]
    by_cases he : items.getD j [] = s
    · exact ⟨j, Nat.le_refl _, hj, he, by rw [if_pos he]⟩
    · rw [if_neg he]
      have hmem2 : s ∈ items.drop (j + 1) := by
        rw [drop_eq_getD_cons items j hj] at hmem
        rcases List.mem_cons.mp hmem with hx | hx
        · exact absurd hx.symm he
        · exact hx
      obtain ⟨m, hm1, hm2, hm3, hm4⟩ := ih (j + 1) items pad s hwf
        (by omega) hmem2
      exact ⟨m, by omega, hm2, hm3, hm4⟩

/-- Effect of `historyRemove` on a well-formed arena containing `str`: one
copy of `str` is removed, `itemsCount` drops by one, and the buffer is again
a well-formed arena whose live region is `|str| + 1` bytes shorter. -/
theorem historyRemove_present (items : List (List Char)) (pad s : List Char)
    (cur : Nat) (hwf : ∀ t ∈ items, goodItem t) (hs : s ∈ items) :
    ∃ items' pad',
      (historyRemove ⟨flattenItems items ++ pad,
        (flattenItems items ++ pad).length, cur, items.length⟩ s).buf =
        flattenItems items' ++ pad' ∧
      (historyRemove ⟨flattenItems items ++ pad,
        (flattenItems items ++ pad).length, cur, items.length⟩ s).bufferSize =
        (flattenItems items ++ pad).length ∧
      (historyRemove ⟨flattenItems items ++ pad,
        (flattenItems items ++ pad).length, cur, items.length⟩ s).itemsCount =
        items.length - 1 ∧
      (∀ t ∈ items', goodItem t) ∧
      items'.length = items.length - 1 ∧
      (flattenItems items').length + (s.length + 1) =
        (flattenItems items).length := by
  have hn : items.length ≠ 0 := by
    intro h0
    rw [List.length_eq_zero] at h0
    subst h0
    simp at hs
  obtain ⟨m, _, hm2, hm3, hfind⟩ := historyFindAux_found items.length 0 items
    pad s hwf (by omega) (by simpa using hs)
  have hsplit := flatten_split_at items m hm2
  have hslen : (flattenItems items).length =
      (flattenItems (items.take m)).length + s.length + 1 +
      (flattenItems (items.drop (m + 1))).length := by
    rw [hsplit, hm3]
    simp
    omega
  simp only [Nat.zero_add] at hfind
  have hred : historyRemove ⟨flattenItems items ++ pad,
      (flattenItems items ++ pad).length, cur, items.length⟩ s =
      (if m + 1 = items.length - 1 + 1 then
        (⟨flattenItems items ++ pad, (flattenItems items ++ pad).length, cur,
          items.length - 1⟩ : CliHistory)
      else
        ⟨(flattenItems items ++ pad).take (offsetOf items m) ++
          (flattenItems items ++ pad).drop (offsetOf items m +
            (asCString ((flattenItems items ++ pad).drop
              (offsetOf items m))).length + 1) ++
          (flattenItems items ++ pad).drop ((flattenItems items ++ pad).length
            - ((asCString ((flattenItems items ++ pad).drop
              (offsetOf items m))).length + 1)),
          (flattenItems items ++ pad).length, cur, items.length - 1⟩) := by
    unfold historyRemove
    rw [if_neg (by simpa using hn), hfind]
  rw [hred]
  by_cases hlast : m + 1 = items.length - 1 + 1
  · -- the removed item is the oldest one: no memmove
    rw [if_pos hlast]
    have hmeq : m = items.length - 1 := by omega
    refine ⟨items.take m, s ++ '\x00' :: pad, ?_, rfl, rfl, ?_, ?_, ?_⟩
    · show flattenItems items ++ pad = flattenItems (items.take m) ++ _
      rw [hsplit, hm3]
      have hdropnil : items.drop (m + 1) = [] := by
        apply List.drop_eq_nil_of_le
        omega
      rw [hdropnil]
      simp [flattenItems]
    · exact fun t ht => hwf t (List.take_subset _ _ ht)
    · simp only [List.length_take]
      omega
    · have hdropnil : items.drop (m + 1) = [] := by
        apply List.drop_eq_nil_of_le
        omega
      rw [hdropnil] at hslen
      simp only [flattenItems, List.length_nil] at hslen
      omega
  · -- interior item: memmove shifts the right part left by |s| + 1
    rw [if_neg hlast]
    have hcs : asCString ((flattenItems items ++ pad).drop (offsetOf items m))
        = s := by
      rw [asCString_at_offset items pad m hwf hm2, hm3]
    rw [hcs]
    refine ⟨items.take m ++ items.drop (m + 1),
      pad ++ (flattenItems items ++ pad).drop
        ((flattenItems items ++ pad).length - (s.length + 1)), ?_, rfl, rfl,
      ?_, ?_, ?_⟩
    · show (flattenItems items ++ pad).take (offsetOf items m) ++
        (flattenItems items ++ pad).drop (offsetOf items m + s.length + 1) ++
        _ = _
      have htake : (flattenItems items ++ pad).take (offsetOf items m) =
          flattenItems (items.take m) := by
        have hof : offsetOf items m = (flattenItems (items.take m)).length :=
          offsetOf_eq_flatten_take items m
        have hx : flattenItems items ++ pad = flattenItems (items.take m) ++
            (flattenItems (items.drop m) ++ pad) := by
          rw [← List.append_assoc, ← flattenItems_append,
            List.take_append_drop]
        rw [hx, hof, List.take_left]
      have hoff2 : offsetOf items m + s.length + 1 = offsetOf items (m + 1) := by
        rw [offsetOf_succ items m hm2, hm3]
      have hdrop2 : (flattenItems items ++ pad).drop
          (offsetOf items m + s.length + 1) =
          flattenItems (items.drop (m + 1)) ++ pad := by
        rw [hoff2, drop_flatten]
      rw [htake, hdrop2, flattenItems_append]
      simp [List.append_assoc]
    · intro t ht
      rcases List.mem_append.mp ht with hx | hx
      · exact hwf t (List.take_subset _ _ hx)
      · exact hwf t (List.drop_subset _ _ hx)
    · simp only [List.length_append, List.length_take, List.length_drop]
      omega
    · rw [flattenItems_append]
      simp only [List.length_append]
      omega

theorem historyEvict_succ (buf : List Char) (bufferSize len k : Nat) :
    historyEvict buf bufferSize len (k + 1) =
      (if len + 1 ≤ bufferSize - ((getTokenPosition buf (k + 1)).getD 0 +
          (asCString (buf.drop ((getTokenPosition buf (k + 1)).getD 0))).length
          + 1)
        then (k + 1, (getTokenPosition buf (k + 1)).getD 0 +
          (asCString (buf.drop
            ((getTokenPosition buf (k + 1)).getD 0))).length + 1)
        else historyEvict buf bufferSize len k) := rfl

/-- On a well-formed arena with enough free space for `len + 1` more bytes,
the eviction loop breaks immediately: nothing is evicted and `usedSize` is
the length of the live region. -/
theorem historyEvict_flatten (items' : List (List Char)) (pad' : List Char)
    (cap len : Nat) (hwf' : ∀ t ∈ items', goodItem t) (hne : items' ≠ [])
    (hfit : (flattenItems items').length + (len + 1) ≤ cap) :
    historyEvict (flattenItems items' ++ pad') cap len items'.length =
      (items'.length, (flattenItems items').length) := by
  have hlen : 0 < items'.length := List.length_pos.mpr hne
  obtain ⟨k, hk⟩ : ∃ k, items'.length = k + 1 :=
    ⟨items'.length - 1, by omega⟩
  rw [hk, historyEvict_succ]
  have hkl : k < items'.length := by omega
  rw [getTokenPosition_flatten items' pad' k hwf' hkl]
  simp only [Option.getD_some]
  rw [asCString_at_offset items' pad' k hwf' hkl]
  have hused : offsetOf items' k + (items'.getD k []).length + 1 =
      (flattenItems items').length := by
    rw [← offsetOf_succ items' k hkl, ← hk, offsetOf_at_length]
  rw [hused]
  rw [if_pos (by omega)]

/-- C5: for every well-formed history arena and every string `s` already
present in it (with `|s| + 1 ≤` capacity), `put(s)` preserves `itemsCount`:
the existing copy is removed and `s` is re-inserted at the front without
evicting any other item. -/
theorem claim_C5_history_put_dedup (items : List (List Char))
    (pad s : List Char) (cur : Nat)
    (hwf : ∀ t ∈ items, t ≠ [] ∧ '\x00' ∉ t) (hs : s ∈ items)
    (hcap : s.length + 1 ≤ (flattenItems items ++ pad).length) :
    (historyPut ⟨flattenItems items ++ pad, (flattenItems items ++ pad).length,
      cur, items.length⟩ s).itemsCount = items.length := by
  have hn : 1 ≤ items.length := by
    rcases items with _ | _
    · simp at hs
    · simp
  obtain ⟨items', pad', hbuf, hsize, hcount, hwf', hlen', hflat'⟩ :=
    historyRemove_present items pad s cur hwf hs
  have hflatle : (flattenItems items).length ≤
      (flattenItems items ++ pad).length := by
    simp
  simp only [historyPut]
  rw [if_neg (by omega)]
  simp only [hbuf, hsize, hcount]
  rcases hcase : items' with _ | ⟨i0, rest⟩
  · -- the only item was s itself: eviction loop is skipped
    rw [hcase] at hlen'
    simp only [List.length_nil] at hlen'
    show (historyEvict _ _ _ (items.length - 1)).1 + 1 = items.length
    rw [← hlen']
    show (historyEvict _ _ _ 0).1 + 1 = items.length
    show 0 + 1 = items.length
    omega
  · rw [← hcase]
    have hne : items' ≠ [] := by
      rw [hcase]
      simp
    have hfit : (flattenItems items').length + (s.length + 1) ≤
        (flattenItems items ++ pad).length := by
      omega
    show (historyEvict (flattenItems items' ++ pad')
      (flattenItems items ++ pad).length s.length (items.length - 1)).1 + 1 =
      items.length
    rw [← hlen']
    rw [historyEvict_flatten items' pad' (flattenItems items ++ pad).length
      s.length hwf' hne hfit]
    omega

/-- C5 witness: a two-item history `["a", "b"]` (capacity 8) with `s = "b"`
already present keeps `itemsCount = 2`. -/
theorem claim_C5_history_put_dedup_witness :
    (historyPut ⟨flattenItems [['a'], ['b']] ++ ['\x00', '\x00'],
      (flattenItems [['a'], ['b']] ++ ['\x00', '\x00']).length, 0,
      ([['a'], ['b']] : List (List Char)).length⟩ ['b']).itemsCount =
      ([['a'], ['b']] : List (List Char)).length :=
  claim_C5_history_put_dedup [['a'], ['b']] ['\x00', '\x00'] ['b'] 0
    (by decide) (by decide) (by decide)

/-! ### Line editor / dispatcher state machine

The engine state (`EmbeddedCli` + `EmbeddedCliImpl`) restricted to the
fields the per-byte state machine reads or writes, with the packed flag word
split into named booleans.  External effects are modelled as observable
event logs: `output` is the byte stream sent through the write hooks
(`writeToOutput` falls back to per-char writes, which emit the same bytes),
`handlerCalls` / `onCommandCalls` / `postCommandCalls` record hook
invocations (handlers are external code, abstracted by the per-binding
`result` code they return), and `submits` counts executions of the
`\r`/`\n` line-submission branch of `onControlInput`. -/

structure CliBinding where
  name : List Char
  help : Option (List Char)
  tokenizeArgs : Bool
  hasHandler : Bool
  result : Nat
deriving DecidableEq, Repr

structure CliState where
  cmdBuffer : List Char
  cmdSize : Nat
  cmdMaxSize : Nat
  bindings : List CliBinding
  history : CliHistory
  inputLineLength : Nat
  lastChar : Char
  invitation : List Char
  escapeMode : Bool
  directPrint : Bool
  autocompleteEnabled : Bool
  onCommandRegistered : Bool
  postCommandRegistered : Bool
  output : List Char
  handlerCalls : List (List Char × Option (List Char))
  onCommandCalls : List (List Char × Option (List Char))
  postCommandCalls : List Nat
  submits : Nat
deriving DecidableEq, Repr

def writeChar (st : CliState) (c : Char) : CliState :=
  { st with output := st.output ++ [c] }

def writeToOutput (st : CliState) (s : List Char) : CliState :=
  { st with output := st.output ++ s }

def lineBreak : List Char := ['\r', '\n']

/-- `isControlChar`: `\r`, `\n`, `\b`, `\t` or DEL. -/
def isControlChar (c : Char) : Bool :=
  c == '\r' || c == '\n' || c == '\x08' || c == '\t' || c == '\x7F'

/-- `isDisplayableChar`: printable ASCII 0x20–0x7E. -/
def isDisplayableChar (c : Char) : Bool :=
  decide (32 ≤ c.toNat) && decide (c.toNat ≤ 126)

/-- Bounds-defaulted read of `l[a] … l[b-1]` (every call site reads in
bounds; see claim C9). -/
def sliceD (l : List Char) (a b : Nat) : List Char :=
  (List.range (b - a)).map (fun k => l.getD (a + k) '\x00')

/-- `memcpy(dst, src, n)` at offset 0 of `dst`. -/
def memcpyD (dst src : List Char) (n : Nat) : List Char :=
  sliceD src 0 n ++ dst.drop n

/-- `clearCurrentLine`: CR, one space per visible char
(invitation + input line), CR; resets `inputLineLength`. -/
def clearCurrentLine (st : CliState) : CliState :=
  let st1 := writeChar st '\r'
  let st2 := writeToOutput st1
    (List.replicate (st.inputLineLength + st.invitation.length) ' ')
  { writeChar st2 '\r' with inputLineLength := 0 }

/-- `printLiveAutocompletion`: recompute the autocompletion for the current
command buffer; emit the missing suffix of the first candidate, erase any
stale longer suffix with spaces, update `inputLineLength`, and repaint
CR + invitation + command buffer. -/
def printLiveAutocompletion (st : CliState) : CliState :=
  if st.autocompleteEnabled = false then st
  else
    let cmd := getAutocompletedCommand (st.bindings.map (fun b => b.name))
      (asCString st.cmdBuffer) st.cmdSize
    let al := if cmd.candidateCount = 0 then st.cmdSize
      else cmd.autocompletedLen
    let st1 := writeToOutput st
      (sliceD (cmd.firstCandidate.getD []) st.cmdSize al)
    let st2 := writeToOutput st1
      (List.replicate (st.inputLineLength - al) ' ')
    let st3 := { writeChar st2 '\r' with inputLineLength := al }
    let st4 := writeToOutput st3 st.invitation
    writeToOutput st4 (asCString st.cmdBuffer)

/-- `onAutocompleteRequest` (tab / pre-submit autocompletion). -/
def onAutocompleteRequest (st : CliState) : CliState :=
  let cmd := getAutocompletedCommand (st.bindings.map (fun b => b.name))
    (asCString st.cmdBuffer) st.cmdSize
  if cmd.candidateCount = 0 then st
  else if cmd.candidateCount = 1 ∨ st.cmdSize < cmd.autocompletedLen then
    let buf1 := memcpyD st.cmdBuffer (cmd.firstCandidate.getD [])
      cmd.autocompletedLen
    let buf2 := if cmd.candidateCount = 1 then
        buf1.set cmd.autocompletedLen ' '
      else buf1
    let al2 := if cmd.candidateCount = 1 then cmd.autocompletedLen + 1
      else cmd.autocompletedLen
    let buf3 := buf2.set al2 '\x00'
    let st1 := { st with cmdBuffer := buf3 }
    let st2 := writeToOutput st1 (asCString (buf3.drop st.cmdSize))
    { st2 with cmdSize := al2, inputLineLength := al2 }
  else
    let st1 := clearCurrentLine st
    let st2 := (st.bindings.filter
      (fun b => isCandidate (asCString st.cmdBuffer) b.name)).foldl
      (fun acc b => writeToOutput (writeToOutput acc b.name) lineBreak) st1
    let st3 := writeToOutput st2 st.invitation
    let st4 := writeToOutput st3 (asCString st.cmdBuffer)
    { st4 with inputLineLength := st.cmdSize }

/-- `navigateHistory`: move the history cursor and replace the current line
with the selected item (`NULL` maps to the empty string). -/
def navigateHistory (st : CliState) (navigateUp : Bool) : CliState :=
  if st.history.itemsCount = 0 ∨
      (navigateUp = true ∧ st.history.current = st.history.itemsCount) ∨
      (navigateUp = false ∧ st.history.current = 0) then st
  else
    let st1 := clearCurrentLine st
    let st2 := writeToOutput st1 st.invitation
    let cur2 := if navigateUp then st.history.current + 1
      else st.history.current - 1
    let item := ((historyGet st.history cur2).map asCString).getD []
    let buf2 := (memcpyD st.cmdBuffer item item.length).set item.length '\x00'
    let st3 := { st2 with history := { st.history with current := cur2 } }
    let st3b := { st3 with cmdBuffer := buf2, cmdSize := item.length }
    let st4 := writeToOutput st3b (asCString buf2)
    printLiveAutocompletion { st4 with inputLineLength := item.length }

/-- `onEscapedInput`: a final byte 0x40–0x7E leaves escape mode; `A`/`B`
navigate history; everything else is consumed silently. -/
def onEscapedInput (st : CliState) (c : Char) : CliState :=
  if 64 ≤ c.toNat ∧ c.toNat ≤ 126 then
    let st1 := { st with escapeMode := false }
    if c = 'A' ∨ c = 'B' then navigateHistory st1 (c = 'A') else st1
  else st

/-- `onCharInput`: append a displayable char when two bytes of slack remain
(`cmdSize + 2 >= cmdMaxSize` drops it), NUL-terminate and echo. -/
def onCharInput (st : CliState) (c : Char) : CliState :=
  if st.cmdMaxSize ≤ st.cmdSize + 2 then st
  else
    let buf1 := (st.cmdBuffer.set st.cmdSize c).set (st.cmdSize + 1) '\x00'
    writeChar { st with cmdBuffer := buf1, cmdSize := st.cmdSize + 1 } c

/-- The name/args split loop of `_parseCommand` over the first `size` bytes
(`i` is the running index, `nm`/`ar` the `cmdName`/`cmdArgs` offsets, `fin`
the `nameFinished` flag); returns the rewritten bytes and both offsets. -/
def splitLoop : List Char → Nat → Option Nat → Option Nat → Bool →
    List Char × Option Nat × Option Nat
  | [], _, nm, ar, _ => ([], nm, ar)
  | c :: rest, i, nm, ar, fin =>
    if c = ' ' then
      let c2 := if ar = none then '\x00' else c
      let fin2 := if nm ≠ none then true else fin
      let r := splitLoop rest (i + 1) nm ar fin2
      (c2 :: r.1, r.2)
    else if nm = none then
      let r := splitLoop rest (i + 1) (some i) ar fin
      (c :: r.1, r.2)
    else if ar = none ∧ fin then
      let r := splitLoop rest (i + 1) nm (some i) fin
      (c :: r.1, r.2)
    else
      let r := splitLoop rest (i + 1) nm ar fin
      (c :: r.1, r.2)

/-- The message of `onUnknownCommand` (four consecutive writes). -/
def unknownCommandMessage (name : List Char) : List Char :=
  "Unknown command: \"".toList ++ name ++
    "\". Write \"help\" for a list of available commands".toList ++ lineBreak

/-- `_parseCommand`: reject all-space input; in REPL mode record the raw
command into history; split name/args in place and ensure the byte at
`size + 1` is NUL; look the name up in the binding table (first `strcmp`
match; a NULL handler falls through to the not-found paths); on a match
optionally tokenize the args in place, set the direct-print flag around the
handler call (REPL mode only) and fire `post-command`; otherwise in direct
mode return 1 silently, in REPL mode run the `onCommand` fallback or print
the unknown-command message.  Returns (state, mutated buffer, result). -/
def _parseCommand (st : CliState) (buffer : List Char) (size : Nat)
    (direct : Bool) : CliState × List Char × Int :=
  if (buffer.take size).all (fun c => c = ' ') then (st, buffer, 1)
  else
    let st1 := if direct = false then
        { st with history := historyPut st.history (asCString buffer) }
      else st
    let sp := splitLoop (buffer.take size) 0 none none false
    let buffer3 := (sp.1 ++ buffer.drop size).set (size + 1) '\x00'
    match sp.2.1 with
    | none => (st1, buffer3, 1)
    | some noff =>
      let cmdName := asCString (buffer3.drop noff)
      let hit := match st.bindings.find? (fun b => b.name = cmdName) with
        | some b => if b.hasHandler then some b else none
        | none => none
      match hit with
      | some b =>
        let buffer4 := match sp.2.2 with
          | some aoff =>
            if b.tokenizeArgs then
              buffer3.take aoff ++ embeddedCliTokenizeArgs (buffer3.drop aoff)
            else buffer3
          | none => buffer3
        let st2 := if direct = false then { st1 with directPrint := true }
          else st1
        let st3 := { st2 with handlerCalls := st2.handlerCalls ++
          [(b.name, (sp.2.2).map (fun aoff => asCString (buffer4.drop aoff)))] }
        let st4 := if st.postCommandRegistered then
            { st3 with postCommandCalls := st3.postCommandCalls ++ [b.result] }
          else st3
        let st5 := if direct = false then { st4 with directPrint := false }
          else st4
        (st5, buffer4, 0)
      | none =>
        if direct then (st1, buffer3, 1)
        else if st.onCommandRegistered then
          let st2a := { st1 with directPrint := true }
          let st2 := { st2a with onCommandCalls := st2a.onCommandCalls ++
            [(cmdName, (sp.2.2).map (fun aoff => asCString (buffer3.drop aoff)))] }
          ({ st2 with directPrint := false }, buffer3, 1)
        else
          let st2 := writeToOutput st1 (unknownCommandMessage cmdName)
          let st3 := if st.postCommandRegistered then
              { st2 with postCommandCalls := st2.postCommandCalls ++ [1] }
            else st2
          (st3, buffer3, 1)

/-- `parseCommand`: REPL-mode dispatch of the current command buffer. -/
def parseCommand (st : CliState) : CliState :=
  let r := _parseCommand st st.cmdBuffer st.cmdSize false
  { r.1 with cmdBuffer := r.2.1 }

/-- The scratch buffer `embeddedCliParseDirectCommand` builds with
`malloc(length + 2)` + `strncpy` + `buffer[length] = '\0'` (strncpy stops at
a NUL in the source and zero-fills; the byte at `length + 1` is
indeterminate in C but is overwritten before any read — modelled as 0). -/
def directBuffer (command : List Char) (length : Nat) : List Char :=
  (command.take length).takeWhile (· ≠ '\x00') ++
    List.replicate (length - ((command.take length).takeWhile
      (· ≠ '\x00')).length) '\x00' ++ ['\x00', '\x00']

/-- `embeddedCliParseDirectCommand`: copy the command into a scratch buffer
and dispatch it in direct mode; the buffer is freed afterwards. -/
def embeddedCliParseDirectCommand (st : CliState) (command : List Char)
    (length : Nat) : CliState × Int :=
  let r := _parseCommand st (directBuffer command length) length true
  (r.1, r.2.2)

/-- The command name `_parseCommand` extracts from a buffer of `size` bytes
(the C string starting at the `cmdName` offset after the split loop), if
any. -/
def parsedName (buffer : List Char) (size : Nat) : Option (List Char) :=
  let sp := splitLoop (buffer.take size) 0 none none false
  (sp.2.1).map (fun noff =>
    asCString (((sp.1 ++ buffer.drop size).set (size + 1) '\x00').drop noff))

/-- `onControlInput`: collapse `\r\n` / `\n\r` pairs; on a line terminator
run the tab autocompletion, emit a line break, dispatch a non-empty command,
reset the line state and re-emit the invitation; on backspace/DEL erase one
char; on tab run the autocompletion request. -/
def onControlInput (st : CliState) (c : Char) : CliState :=
  if (st.lastChar = '\r' ∧ c = '\n') ∨ (st.lastChar = '\n' ∧ c = '\r') then st
  else if c = '\r' ∨ c = '\n' then
    let st1 := onAutocompleteRequest st
    let st2 := writeToOutput st1 lineBreak
    let st3 := if 0 < st2.cmdSize then parseCommand st2 else st2
    let st4 := { st3 with cmdSize := 0, cmdBuffer := st3.cmdBuffer.set 0 '\x00', inputLineLength := 0, history := { st3.history with current := 0 }, submits := st3.submits + 1 }
    writeToOutput st4 st4.invitation
  else if (c = '\x08' ∨ c = '\x7F') ∧ 0 < st.cmdSize then
    let st1 := writeToOutput st ['\x08', ' ', '\x08']
    { st1 with cmdSize := st.cmdSize - 1, cmdBuffer := st1.cmdBuffer.set (st.cmdSize - 1) '\x00' }
  else if c = '\t' then onAutocompleteRequest st
  else st

/-- The body of the `while (fifoBufAvailable(...))` loop of
`embeddedCliProcess` for one popped byte: classify (escape mode, escape
introducer, control char, displayable char, other), then run the live
autocompletion repaint and record the byte in `lastChar`. -/
def processStep (st : CliState) (c : Char) : CliState :=
  let st1 :=
    if st.escapeMode then onEscapedInput st c
    else if st.lastChar = '\x1B' ∧ c = '[' then { st with escapeMode := true }
    else if isControlChar c then onControlInput st c
    else if isDisplayableChar c then onCharInput st c
    else st
  let st2 := printLiveAutocompletion st1
  { st2 with lastChar := c }

/-- Typing a sequence of chars into the editor: each char lands after the
previous ones, the NUL terminator follows, and each char is echoed, as long
as two bytes of slack remain. -/
theorem onCharInput_fold : ∀ (xs pre tail : List Char) (st : CliState),
    st.cmdBuffer = pre ++ '\x00' :: tail →
    st.cmdSize = pre.length →
    st.cmdBuffer.length = st.cmdMaxSize →
    pre.length + xs.length + 2 ≤ st.cmdMaxSize →
    xs.foldl onCharInput st = { st with
      cmdBuffer := pre ++ xs ++ '\x00' :: tail.drop xs.length,
      cmdSize := pre.length + xs.length,
      output := st.output ++ xs } := by
  intro xs
  induction xs with
  | nil =>
    intro pre tail st hbuf hsz _ _
    simp only [List.foldl_nil, List.nil_append, List.append_nil,
      List.length_nil, List.drop_zero, Nat.add_zero]
    rw [← hbuf, ← hsz]
  | cons x rest ih =>
    intro pre tail st hbuf hsz hM hlen
    simp only [List.length_cons] at hlen
    have hMlen : pre.length + 1 + 2 ≤ st.cmdMaxSize := by omega
    have htail : tail.length + pre.length + 1 = st.cmdMaxSize := by
      rw [← hM, hbuf]
      simp
      omega
    rcases tail with _ | ⟨t, ts⟩
    · exfalso
      simp at htail
      omega
    simp only [List.length_cons] at htail
    have hstep : onCharInput st x = { st with
        cmdBuffer := (pre ++ [x]) ++ '\x00' :: ts,
        cmdSize := (pre ++ [x]).length,
        output := st.output ++ [x] } := by
      unfold onCharInput
      rw [if_neg (by omega)]
      have hset1 : st.cmdBuffer.set st.cmdSize x = pre ++ x :: t :: ts := by
        rw [hbuf, hsz, List.set_append_right _ _ (Nat.le_refl _)]
        simp
      have hset2 : (pre ++ x :: t :: ts).set (st.cmdSize + 1) '\x00' =
          (pre ++ [x]) ++ '\x00' :: ts := by
        rw [hsz]
        rw [show pre ++ x :: t :: ts = (pre ++ [x]) ++ t :: ts by simp]
        rw [show pre.length + 1 = (pre ++ [x]).length by simp]
        rw [List.set_append_right _ _ (Nat.le_refl _)]
        simp
      rw [hset1, hset2]
      show { st with
        cmdBuffer := (pre ++ [x]) ++ '\x00' :: ts,
        cmdSize := st.cmdSize + 1,
        output := st.output ++ [x] } = _
      rw [hsz]
      simp
    rw [List.foldl_cons, hstep,
      ih (pre ++ [x]) ts { st with
        cmdBuffer := (pre ++ [x]) ++ '\x00' :: ts,
        cmdSize := (pre ++ [x]).length,
        output := st.output ++ [x] } rfl rfl (by simp; omega) (by simp; omega)]
    simp
    omega

/-- C6: typing any sequence of displayable characters of length below
`cmd-buffer-size - 1` into an initially empty command buffer leaves the
buffer equal to exactly the input bytes, NUL-terminated, with every byte
echoed in order; and a single displayable byte is appended and echoed iff
`cmdSize + 2 < cmdMaxSize` when it arrives, and dropped (no state change)
otherwise. -/
theorem claim_C6_displayable_typing (xs : List Char) (st : CliState)
    (hsz : st.cmdSize = 0) (hb0 : st.cmdBuffer.getD 0 'a' = '\x00')
    (hM : st.cmdBuffer.length = st.cmdMaxSize)
    (hlen : xs.length < st.cmdMaxSize - 1)
    (hdisp : ∀ c ∈ xs, isDisplayableChar c = true) :
    ((xs.foldl onCharInput st).cmdBuffer.take xs.length = xs ∧
     (xs.foldl onCharInput st).cmdBuffer.getD xs.length 'a' = '\x00' ∧
     (xs.foldl onCharInput st).cmdSize = xs.length ∧
     (xs.foldl onCharInput st).output = st.output ++ xs) ∧
    (∀ (s : CliState) (c : Char),
      (s.cmdSize + 2 < s.cmdMaxSize →
        onCharInput s c = { s with
          cmdBuffer := (s.cmdBuffer.set s.cmdSize c).set (s.cmdSize + 1) '\x00',
          cmdSize := s.cmdSize + 1,
          output := s.output ++ [c] }) ∧
      (s.cmdMaxSize ≤ s.cmdSize + 2 → onCharInput s c = s)) := by
  constructor
  · have hM3 : xs.length + 2 ≤ st.cmdMaxSize := by
      rcases Nat.eq_zero_or_pos st.cmdMaxSize with h0 | h0
      · rw [h0] at hlen
        simp at hlen
      · omega
    have hlen1 : 1 ≤ st.cmdBuffer.length := by
      rw [hM]
      omega
    rcases hcb : st.cmdBuffer with _ | ⟨b0, brest⟩
    · rw [hcb] at hlen1
      simp at hlen1
    have hb0' : b0 = '\x00' := by
      rw [hcb] at hb0
      simpa using hb0
    have hfold := onCharInput_fold xs [] brest st
      (by rw [hcb, hb0']; rfl) (by simpa using hsz)
      hM (by simpa using hM3)
    rw [hfold]
    refine ⟨?_, ?_, by simpa using hsz ▸ rfl, rfl⟩
    · show (xs ++ '\x00' :: brest.drop xs.length).take xs.length = xs
      rw [List.take_left]
    · show (xs ++ '\x00' :: brest.drop xs.length).getD xs.length 'a' = '\x00'
      rw [List.getD_eq_getElem?_getD,
        List.getElem?_append_right (Nat.le_refl _)]
      simp
  · intro s c
    constructor
    · intro hlt
      unfold onCharInput
      rw [if_neg (by omega)]
      rfl
    · intro hge
      unfold onCharInput
      rw [if_pos (by omega)]

/-- C6 witness: typing `"hi"` into an empty 8-byte command buffer. -/
theorem claim_C6_displayable_typing_witness :
    ((['h', 'i'].foldl onCharInput
      ⟨List.replicate 8 '\x00', 0, 8, [], ⟨[], 0, 0, 0⟩, 0, '\x00',
        ['>', ' '], false, false, true, false, false, [], [], [], [],
        0⟩).cmdBuffer.take 2 = ['h', 'i'] ∧
     (['h', 'i'].foldl onCharInput
      ⟨List.replicate 8 '\x00', 0, 8, [], ⟨[], 0, 0, 0⟩, 0, '\x00',
        ['>', ' '], false, false, true, false, false, [], [], [], [],
        0⟩).cmdBuffer.getD 2 'a' = '\x00' ∧
     (['h', 'i'].foldl onCharInput
      ⟨List.replicate 8 '\x00', 0, 8, [], ⟨[], 0, 0, 0⟩, 0, '\x00',
        ['>', ' '], false, false, true, false, false, [], [], [], [],
        0⟩).cmdSize = 2 ∧
     (['h', 'i'].foldl onCharInput
      ⟨List.replicate 8 '\x00', 0, 8, [], ⟨[], 0, 0, 0⟩, 0, '\x00',
        ['>', ' '], false, false, true, false, false, [], [], [], [],
        0⟩).output = [] ++ ['h', 'i']) :=
  (claim_C6_displayable_typing ['h', 'i']
    ⟨List.replicate 8 '\x00', 0, 8, [], ⟨[], 0, 0, 0⟩, 0, '\x00',
      ['>', ' '], false, false, true, false, false, [], [], [], [], 0⟩
    (by decide) (by decide) (by decide) (by decide) (by decide)).1

/-! Frame lemmas: each editor routine only writes the state fields it is
specified to write. -/

theorem outputFold_frame : ∀ (l : List CliBinding) (st : CliState),
    ∃ out, l.foldl
      (fun acc b => writeToOutput (writeToOutput acc b.name) lineBreak) st =
      { st with output := out } := by
  intro l
  induction l with
  | nil => intro st; exact ⟨st.output, rfl⟩
  | cons b bs ih =>
    intro st
    obtain ⟨out, hout⟩ := ih (writeToOutput (writeToOutput st b.name) lineBreak)
    refine ⟨out, ?_⟩
    rw [List.foldl_cons, hout]
    rfl

theorem clearCurrentLine_frame (st : CliState) :
    ∃ out, clearCurrentLine st =
      { st with output := out, inputLineLength := 0 } :=
  ⟨_, rfl⟩

theorem printLiveAutocompletion_frame (st : CliState) :
    ∃ out ill, printLiveAutocompletion st =
      { st with output := out, inputLineLength := ill } := by
  simp only [printLiveAutocompletion]
  split
  · exact ⟨st.output, st.inputLineLength, rfl⟩
  · exact ⟨_, _, rfl⟩

theorem onAutocompleteRequest_frame (st : CliState) :
    ∃ buf sz ill out, onAutocompleteRequest st = { st with
      cmdBuffer := buf, cmdSize := sz, inputLineLength := ill,
      output := out } := by
  simp only [onAutocompleteRequest]
  split
  · exact ⟨st.cmdBuffer, st.cmdSize, st.inputLineLength, st.output, rfl⟩
  split
  · exact ⟨_, _, _, _, rfl⟩
  · obtain ⟨o2, h2⟩ := outputFold_frame
      (st.bindings.filter (fun b => isCandidate (asCString st.cmdBuffer) b.name))
      (clearCurrentLine st)
    obtain ⟨o1, h1⟩ := clearCurrentLine_frame st
    rw [h2, h1]
    exact ⟨_, _, _, _, rfl⟩

theorem parseCommandAux_frame (st : CliState) (buffer : List Char)
    (size : Nat) (direct : Bool) :
    ∃ hist dp out hc oc pc, (_parseCommand st buffer size direct).1 = { st with
      history := hist, directPrint := dp, output := out,
      handlerCalls := hc, onCommandCalls := oc, postCommandCalls := pc } := by
  simp only [_parseCommand]
  repeat' split
  all_goals exact ⟨_, _, _, _, _, _, rfl⟩

theorem parseCommand_frame (st : CliState) :
    ∃ buf hist dp out hc oc pc, parseCommand st = { st with
      cmdBuffer := buf, history := hist, directPrint := dp,
      output := out, handlerCalls := hc, onCommandCalls := oc,
      postCommandCalls := pc } := by
  obtain ⟨hist, dp, out, hc, oc, pc, h⟩ :=
    parseCommandAux_frame st st.cmdBuffer st.cmdSize false
  refine ⟨(_parseCommand st st.cmdBuffer st.cmdSize false).2.1, hist, dp, out,
    hc, oc, pc, ?_⟩
  simp only [parseCommand]
  rw [h]

/-- Collapsed second byte of a `\r\n` / `\n\r` pair: `onControlInput`
returns the state unchanged. -/
theorem onControlInput_collapse (st : CliState) (c : Char)
    (hcol : (st.lastChar = '\r' ∧ c = '\n') ∨ (st.lastChar = '\n' ∧ c = '\r')) :
    onControlInput st c = st := by
  simp only [onControlInput]
  rw [if_pos hcol]

/-- A non-collapsed line terminator runs the submission branch exactly once:
the state is the base state with line-local fields rewritten and `submits`
incremented by one. -/
theorem onControlInput_enter (st : CliState) (c : Char)
    (hc : c = '\r' ∨ c = '\n')
    (hnc : ¬((st.lastChar = '\r' ∧ c = '\n') ∨
      (st.lastChar = '\n' ∧ c = '\r'))) :
    ∃ buf sz hist dp out hcx oc pc ill,
      onControlInput st c = { st with cmdBuffer := buf, cmdSize := sz, history := hist, directPrint := dp, output := out, handlerCalls := hcx, onCommandCalls := oc, postCommandCalls := pc, inputLineLength := ill, submits := st.submits + 1 } := by
  simp only [onControlInput]
  rw [if_neg hnc, if_pos hc]
  split
  · obtain ⟨buf, hist, dp, out, hcx, oc, pc, hp⟩ :=
      parseCommand_frame (writeToOutput (onAutocompleteRequest st) lineBreak)
    rw [hp]
    obtain ⟨b1, s1, i1, o1, ha⟩ := onAutocompleteRequest_frame st
    rw [ha]
    exact ⟨_, _, _, _, _, _, _, _, _, rfl⟩
  · obtain ⟨b1, s1, i1, o1, ha⟩ := onAutocompleteRequest_frame st
    rw [ha]
    exact ⟨_, _, _, _, _, _, _, _, _, rfl⟩

/-- The per-byte loop body on a control char (escape mode off, not an
escape introducer). -/
theorem processStep_eq_control (st : CliState) (c : Char)
    (hesc : st.escapeMode = false)
    (hbrk : ¬(st.lastChar = '\x1B' ∧ c = '['))
    (hctl : isControlChar c = true) :
    processStep st c =
      { printLiveAutocompletion (onControlInput st c) with lastChar := c } := by
  simp only [processStep]
  rw [if_neg (by simp [hesc]), if_neg hbrk, if_pos hctl]

/-- C7: each two-byte sequence `\r\n` or `\n\r` (arriving outside escape
mode, with the preceding byte not already forming a pair) submits exactly
one command: the first byte runs the submission branch once, and the second
byte is ignored — it changes nothing but `lastChar` and the live-repaint
output, triggering no second submission, no dispatch and no edit. -/
theorem claim_C7_crlf_single_submit (st : CliState) (c₁ c₂ : Char)
    (hpair : (c₁ = '\r' ∧ c₂ = '\n') ∨ (c₁ = '\n' ∧ c₂ = '\r'))
    (hesc : st.escapeMode = false) (hlast : st.lastChar ≠ c₂) :
    (processStep (processStep st c₁) c₂).submits = st.submits + 1 ∧
    (processStep st c₁).submits = st.submits + 1 ∧
    (processStep (processStep st c₁) c₂).cmdSize = (processStep st c₁).cmdSize ∧
    (processStep (processStep st c₁) c₂).cmdBuffer =
      (processStep st c₁).cmdBuffer ∧
    (processStep (processStep st c₁) c₂).handlerCalls =
      (processStep st c₁).handlerCalls ∧
    (processStep (processStep st c₁) c₂).onCommandCalls =
      (processStep st c₁).onCommandCalls ∧
    (processStep (processStep st c₁) c₂).history =
      (processStep st c₁).history := by
  have hc1 : c₁ = '\r' ∨ c₁ = '\n' := by
    rcases hpair with ⟨h1, _⟩ | ⟨h1, _⟩
    · exact Or.inl h1
    · exact Or.inr h1
  have hbrk1 : ¬(st.lastChar = '\x1B' ∧ c₁ = '[') := by
    rintro ⟨_, hx⟩
    rcases hc1 with h | h <;> rw [h] at hx <;> exact absurd hx (by decide)
  have hctl1 : isControlChar c₁ = true := by
    rcases hc1 with h | h <;> rw [h] <;> decide
  have hnc : ¬((st.lastChar = '\r' ∧ c₁ = '\n') ∨
      (st.lastChar = '\n' ∧ c₁ = '\r')) := by
    rintro (⟨hl, hx⟩ | ⟨hl, hx⟩)
    · rcases hpair with ⟨h1, _⟩ | ⟨_, h2⟩
      · rw [h1] at hx
        exact absurd hx (by decide)
      · exact hlast (by rw [hl, h2])
    · rcases hpair with ⟨_, h2⟩ | ⟨h1, _⟩
      · exact hlast (by rw [hl, h2])
      · rw [h1] at hx
        exact absurd hx (by decide)
  have hst1 := processStep_eq_control st c₁ hesc hbrk1 hctl1
  obtain ⟨buf, sz, hist, dp, out, hcx, oc, pc, ill, hB⟩ :=
    onControlInput_enter st c₁ hc1 hnc
  rw [hB] at hst1
  obtain ⟨o2, i2, hC⟩ := printLiveAutocompletion_frame { st with
    cmdBuffer := buf, cmdSize := sz, history := hist,
    directPrint := dp, output := out, handlerCalls := hcx,
    onCommandCalls := oc, postCommandCalls := pc, inputLineLength := ill,
    submits := st.submits + 1 }
  rw [hC] at hst1
  have hsub1 : (processStep st c₁).submits = st.submits + 1 := by
    rw [hst1]
  have hesc1 : (processStep st c₁).escapeMode = false := by
    rw [hst1]
    exact hesc
  have hlast1 : (processStep st c₁).lastChar = c₁ := by
    rw [hst1]
  have hctl2 : isControlChar c₂ = true := by
    rcases hpair with ⟨_, h⟩ | ⟨_, h⟩ <;> rw [h] <;> decide
  have hbrk2 : ¬((processStep st c₁).lastChar = '\x1B' ∧ c₂ = '[') := by
    rintro ⟨_, hx⟩
    rcases hpair with ⟨_, h⟩ | ⟨_, h⟩ <;> rw [h] at hx <;>
      exact absurd hx (by decide)
  have hcol : onControlInput (processStep st c₁) c₂ = processStep st c₁ := by
    apply onControlInput_collapse
    rw [hlast1]
    rcases hpair with ⟨h1, h2⟩ | ⟨h1, h2⟩
    · exact Or.inl ⟨h1, h2⟩
    · exact Or.inr ⟨h1, h2⟩
  have hst2 := processStep_eq_control (processStep st c₁) c₂ hesc1 hbrk2 hctl2
  rw [hcol] at hst2
  obtain ⟨o3, i3, hC2⟩ := printLiveAutocompletion_frame (processStep st c₁)
  rw [hC2] at hst2
  rw [hst2]
  exact ⟨hsub1, hsub1, rfl, rfl, rfl, rfl, rfl⟩

/-- C7 witness: the pair `\r\n` typed into a fresh editor state submits
exactly once. -/
theorem claim_C7_crlf_single_submit_witness :
    (processStep (processStep
      ⟨List.replicate 8 '\x00', 0, 8, [], ⟨[], 0, 0, 0⟩, 0, '\x00',
        ['>', ' '], false, false, true, false, false, [], [], [], [], 0⟩
      '\x0D') '\x0A').submits = 0 + 1 :=
  (claim_C7_crlf_single_submit
    ⟨List.replicate 8 '\x00', 0, 8, [], ⟨[], 0, 0, 0⟩, 0, '\x00',
      ['>', ' '], false, false, true, false, false, [], [], [], [], 0⟩
    '\x0D' '\x0A' (by decide) (by decide) (by decide)).1

/-- Direct-mode dispatch never touches the history or the `onCommand`
fallback, on any input. -/
theorem parseDirect_no_side (st : CliState) (buffer : List Char)
    (size : Nat) :
    (_parseCommand st buffer size true).1.history = st.history ∧
    (_parseCommand st buffer size true).1.onCommandCalls =
      st.onCommandCalls := by
  simp only [_parseCommand]
  repeat' split
  all_goals first
  | exact Bool.noConfusion (show (true : Bool) = false by assumption)
  | exact absurd trivial (by assumption)
  | simp

/-- Direct-mode dispatch with no matching binding name: result 1 and the
state (hence also the output) is completely unchanged. -/
theorem parseDirect_no_match (st : CliState) (buffer : List Char) (size : Nat)
    (hmiss : ∀ b ∈ st.bindings, parsedName buffer size ≠ some b.name) :
    (_parseCommand st buffer size true).2.2 = 1 ∧
    (_parseCommand st buffer size true).1 = st := by
  simp only [_parseCommand]
  split
  · exact ⟨rfl, rfl⟩
  split
  · exact ⟨rfl, by simp⟩
  · rename_i noff hsp
    have hfind : st.bindings.find? (fun b => b.name = asCString
        ((((splitLoop (buffer.take size) 0 none none false).1 ++
          buffer.drop size).set (size + 1) '\x00').drop noff)) = none := by
      apply List.find?_eq_none.mpr
      intro b hb
      simp only [decide_eq_true_eq]
      intro heq
      apply hmiss b hb
      simp only [parsedName, hsp]
      rw [heq]
      rfl
    rw [hfind]
    exact ⟨rfl, by simp⟩

/-- C8: a command submitted through `embeddedCliParseDirectCommand` (direct
mode) is never inserted into history and never invokes the `onCommand`
fallback; when the extracted command name matches no binding, the call
returns 1 with the state — in particular the output — unchanged (no
unknown-command message). -/
theorem claim_C8_direct_mode (st : CliState) (command : List Char)
    (length : Nat) :
    ((embeddedCliParseDirectCommand st command length).1.history =
        st.history ∧
     (embeddedCliParseDirectCommand st command length).1.onCommandCalls =
        st.onCommandCalls) ∧
    ((∀ b ∈ st.bindings,
        parsedName (directBuffer command length) length ≠ some b.name) →
      (embeddedCliParseDirectCommand st command length).2 = 1 ∧
      (embeddedCliParseDirectCommand st command length).1 = st) := by
  constructor
  · exact parseDirect_no_side st (directBuffer command length) length
  · intro hmiss
    obtain ⟨h1, h2⟩ :=
      parseDirect_no_match st (directBuffer command length) length hmiss
    exact ⟨h1, h2⟩

/-- C8 witness: the unbound command `"x"` dispatched directly against a
table with the single binding `"led"` returns 1 and leaves the state
untouched. -/
theorem claim_C8_direct_mode_witness :
    (embeddedCliParseDirectCommand
      ⟨List.replicate 8 '\x00', 0, 8, [⟨['l', 'e', 'd'], none, false, true,
        0⟩], ⟨[], 0, 0, 0⟩, 0, '\x00', ['>', ' '], false, false, true, false,
        false, [], [], [], [], 0⟩ ['x'] 1).2 = 1 :=
  ((claim_C8_direct_mode
    ⟨List.replicate 8 '\x00', 0, 8, [⟨['l', 'e', 'd'], none, false, true,
      0⟩], ⟨[], 0, 0, 0⟩, 0, '\x00', ['>', ' '], false, false, true, false,
      false, [], [], [], [], 0⟩ ['x'] 1).2 (by decide)).1

end EmbeddedCli
